import Mathlib

/-!
# Verification of the EchoLearn pronunciation-assessment core

Shallow embedding of the scoring pipeline of `worker/src/services` (and the
experiment scoring service) together with theorems settling the frozen claims
about it.  Python floats are modelled by `ℚ` where the source performs exact
field arithmetic on representable values and by `ℝ` where it computes
transcendental functions (`sqrt`, `exp`, `log`); `float('inf')` sentinels are
modelled by `⊤ : WithTop _`; NaN-producing operations are modelled by
`Option`.
-/

namespace EchoLearn

/-! ## Levenshtein edit distance and PER (`phoneme_per._calc_per`,
`AudioScorer._calculate_per_similarity`)

`lev` is the textbook (head-recursive) Levenshtein distance with unit
substitution/insertion/deletion costs, used as the independent specification.
`levDP` is the dynamic-programming table filled by `_calc_per` (and by the
identical inline DP of `AudioScorer._calculate_per_similarity`):
`dp[i][0] = i`, `dp[0][j] = j`, and
`dp[i][j] = dp[i-1][j-1]` when `ref[i-1] == hyp[j-1]`, else
`1 + min(dp[i-1][j], dp[i][j-1], dp[i-1][j-1])`. -/

variable {α : Type} [DecidableEq α]

/-- Textbook Levenshtein edit distance (unit costs): the mathematical
specification of "the Levenshtein edit distance". -/
def lev : List α → List α → ℕ
  | [], ys => ys.length
  | _ :: xs, [] => xs.length + 1
  | x :: xs, y :: ys =>
    if x = y then lev xs ys
    else 1 + min (lev xs ys) (min (lev (x :: xs) ys) (lev xs (y :: ys)))
termination_by xs ys => xs.length + ys.length

/-- Entry `dp[i][j]` of the edit-distance table of `_calc_per` (`ref[i-1]`,
`hyp[j-1]` are the last symbols of the compared prefixes). -/
def levDP (ref hyp : List α) : ℕ → ℕ → ℕ
  | i, 0 => i
  | 0, j + 1 => j + 1
  | i + 1, j + 1 =>
    if ref[i]? = hyp[j]? then levDP ref hyp i j
    else 1 + min (levDP ref hyp i (j + 1)) (min (levDP ref hyp (i + 1) j) (levDP ref hyp i j))
termination_by i j => i + j

/-- `phoneme_per._calc_per`: edit distance divided by the reference length,
`0.0` for an empty reference. -/
def calcPer (ref hyp : List α) : ℚ :=
  if ref.length = 0 then 0
  else (levDP ref hyp ref.length hyp.length : ℚ) / ref.length

/-- `AudioScorer._calculate_per_similarity`: `0.0` for an empty reference,
else `max(0, 1 - PER)` with the same DP table. -/
def scorerPerSimilarity (refPhones testPhones : List α) : ℚ :=
  if refPhones = [] then 0
  else max 0 (1 - (levDP refPhones testPhones refPhones.length testPhones.length : ℚ) /
    refPhones.length)

/-- Pure tail of `phoneme_per.calculate_per_similarity`: `0.0` when either
phone sequence is empty, else `max(0, 1 - _calc_per(a, b))`. -/
def calculatePerSimilarity (phonesA phonesB : List α) : ℚ :=
  if phonesA = [] ∨ phonesB = [] then 0
  else max 0 (1 - calcPer phonesA phonesB)

theorem lev_nil_left (ys : List α) : lev ([] : List α) ys = ys.length := by
  rw [lev]

theorem lev_nil_right (xs : List α) : lev xs ([] : List α) = xs.length := by
  cases xs with
  | nil => rw [lev]
  | cons x t => rw [lev]; rfl

theorem lev_cons_cons (x y : α) (xs ys : List α) :
    lev (x :: xs) (y :: ys) =
      if x = y then lev xs ys
      else 1 + min (lev xs ys) (min (lev (x :: xs) ys) (lev xs (y :: ys))) := by
  rw [lev]

theorem lev_self (xs : List α) : lev xs xs = 0 := by
  induction xs with
  | nil => rw [lev_nil_left]; rfl
  | cons x t ih => rw [lev_cons_cons, if_pos rfl, ih]

theorem lev_eq_zero {xs ys : List α} (h : lev xs ys = 0) : xs = ys := by
  induction xs generalizing ys with
  | nil =>
    rw [lev_nil_left] at h
    exact (List.length_eq_zero.mp h).symm
  | cons x t ih =>
    cases ys with
    | nil => rw [lev_nil_right] at h; simp at h
    | cons y u =>
      rw [lev_cons_cons] at h
      by_cases hxy : x = y
      · rw [if_pos hxy] at h
        rw [hxy, ih h]
      · rw [if_neg hxy] at h
        omega

/-- Edit distance from a one-element list. -/
theorem lev_singleton (a : α) (zs : List α) :
    lev [a] zs = if a ∈ zs then zs.length - 1 else max zs.length 1 := by
  induction zs with
  | nil => rw [lev_nil_right]; simp
  | cons z t ih =>
    rw [lev_cons_cons]
    by_cases haz : a = z
    · subst haz
      rw [if_pos rfl, lev_nil_left]
      simp
    · rw [if_neg haz, lev_nil_left, lev_nil_left, ih]
      have hz : (a ∈ z :: t) ↔ (a ∈ t) := by
        simp [List.mem_cons, haz]
      by_cases hmem : a ∈ t
      · have ht : t ≠ [] := by rintro rfl; simp at hmem
        have h1 : 1 ≤ t.length := List.length_pos.mpr ht
        rw [if_pos hmem, if_pos (hz.mpr hmem)]
        simp only [List.length_cons]
        omega
      · rw [if_neg hmem, if_neg (fun hc => hmem (hz.mp hc))]
        by_cases hte : t = []
        · subst hte
          simp
        · have h1 : 1 ≤ t.length := List.length_pos.mpr hte
          simp only [List.length_cons]
          omega

theorem lev_comm_aux (n : ℕ) :
    ∀ xs ys : List α, xs.length + ys.length ≤ n → lev xs ys = lev ys xs := by
  induction n with
  | zero =>
    intro xs ys h
    have hx : xs = [] := List.length_eq_zero.mp (by omega)
    have hy : ys = [] := List.length_eq_zero.mp (by omega)
    rw [hx, hy]
  | succ n ih =>
    intro xs ys h
    match xs, ys with
    | [], ys => rw [lev_nil_left, lev_nil_right]
    | x :: xs, [] => rw [lev_nil_left, lev_nil_right]
    | x :: xs, y :: ys =>
      simp only [List.length_cons] at h
      rw [lev_cons_cons, lev_cons_cons]
      by_cases hxy : x = y
      · rw [if_pos hxy, if_pos hxy.symm, ih xs ys (by omega)]
      · rw [if_neg hxy, if_neg (Ne.symm hxy),
          ih xs ys (by omega),
          ih (x :: xs) ys (by simp; omega),
          ih xs (y :: ys) (by simp; omega)]
        omega

theorem lev_comm (xs ys : List α) : lev xs ys = lev ys xs :=
  lev_comm_aux (xs.length + ys.length) xs ys le_rfl

/-- Exchange of the two ways of grouping the minimum over the nine corner
distances arising in the snoc recurrence. -/
theorem min_nine_exchange (A B C D E F G H I : ℕ) :
    1 + min (1 + min A (min B C)) (min (1 + min D (min E F)) (1 + min G (min H I))) =
      1 + min (1 + min A (min D G)) (min (1 + min B (min E H)) (1 + min C (min F I))) := by
  have key : ∀ x y : ℕ, min (1 + x) (1 + y) = 1 + min x y := fun x y => by omega
  simp only [key]
  have hmin : min (min A (min B C)) (min (min D (min E F)) (min G (min H I))) =
      min (min A (min D G)) (min (min B (min E H)) (min C (min F I))) := by
    ac_rfl
  rw [hmin]

set_option maxHeartbeats 800000 in
/-- The "last element" (snoc) recurrence for the Levenshtein distance: peeling
the final symbols of both lists obeys the same recurrence the `_calc_per`
dynamic program uses on prefixes. -/
theorem lev_snoc_aux (n : ℕ) :
    ∀ (xs ys : List α) (a b : α), xs.length + ys.length ≤ n →
      lev (xs ++ [a]) (ys ++ [b]) =
        if a = b then lev xs ys
        else 1 + min (lev xs ys) (min (lev (xs ++ [a]) ys) (lev xs (ys ++ [b]))) := by
  induction n with
  | zero =>
    intro xs ys a b h
    have hx : xs = [] := List.length_eq_zero.mp (by omega)
    have hy : ys = [] := List.length_eq_zero.mp (by omega)
    subst hx; subst hy
    by_cases hab : a = b <;>
      simp [lev_cons_cons, lev_nil_left, lev_nil_right, hab]
  | succ n ih =>
    intro xs ys a b h
    match xs, ys with
    | [], ys =>
      have hmem : (a ∈ ys ++ [b]) ↔ (a ∈ ys ∨ a = b) := by
        simp [List.mem_append]
      simp only [List.nil_append]
      rw [lev_singleton, lev_singleton, lev_nil_left, lev_nil_left]
      by_cases hab : a = b
      · rw [if_pos hab, if_pos (hmem.mpr (Or.inr hab))]
        simp
      · rw [if_neg hab]
        by_cases hmem' : a ∈ ys
        · have hy : ys ≠ [] := by rintro rfl; simp at hmem'
          have h1 : 1 ≤ ys.length := List.length_pos.mpr hy
          rw [if_pos (hmem.mpr (Or.inl hmem')), if_pos hmem']
          simp only [List.length_append, List.length_singleton]
          omega
        · rw [if_neg (fun hc => (hmem.mp hc).elim hmem' hab), if_neg hmem']
          by_cases hy : ys = []
          · subst hy; simp
          · have h1 : 1 ≤ ys.length := List.length_pos.mpr hy
            simp only [List.length_append, List.length_singleton]
            omega
    | x :: xs, [] =>
      have hmem : (b ∈ (x :: xs) ++ [a]) ↔ (b ∈ x :: xs ∨ b = a) := by
        simp [List.mem_append, List.mem_cons, or_assoc]
      have hL : 1 ≤ (x :: xs).length := List.length_pos.mpr (by simp)
      rw [lev_comm ((x :: xs) ++ [a]), List.nil_append, lev_singleton,
        lev_comm (x :: xs) [b], lev_singleton, lev_nil_right, lev_nil_right]
      by_cases hab : a = b
      · rw [if_pos hab, if_pos (hmem.mpr (Or.inr hab.symm))]
        simp only [List.length_append, List.length_singleton]
        omega
      · rw [if_neg hab]
        by_cases hmem' : b ∈ x :: xs
        · rw [if_pos (hmem.mpr (Or.inl hmem')), if_pos hmem']
          simp only [List.length_append, List.length_singleton]
          omega
        · rw [if_neg (fun hc => (hmem.mp hc).elim hmem' (fun hba => hab hba.symm)),
            if_neg hmem']
          simp only [List.length_append, List.length_singleton]
          omega
    | x :: xs, y :: ys =>
      simp only [List.length_cons] at h
      have h1 := ih xs ys a b (by omega)
      have h2 := ih (x :: xs) ys a b (by simp only [List.length_cons]; omega)
      have h3 := ih xs (y :: ys) a b (by simp only [List.length_cons]; omega)
      have hL : lev ((x :: xs) ++ [a]) ((y :: ys) ++ [b]) =
          if x = y then lev (xs ++ [a]) (ys ++ [b])
          else 1 + min (lev (xs ++ [a]) (ys ++ [b]))
            (min (lev ((x :: xs) ++ [a]) (ys ++ [b])) (lev (xs ++ [a]) ((y :: ys) ++ [b]))) :=
        lev_cons_cons x y (xs ++ [a]) (ys ++ [b])
      have hR1 : lev (x :: xs) (y :: ys) =
          if x = y then lev xs ys
          else 1 + min (lev xs ys) (min (lev (x :: xs) ys) (lev xs (y :: ys))) :=
        lev_cons_cons x y xs ys
      have hR2 : lev ((x :: xs) ++ [a]) (y :: ys) =
          if x = y then lev (xs ++ [a]) ys
          else 1 + min (lev (xs ++ [a]) ys)
            (min (lev ((x :: xs) ++ [a]) ys) (lev (xs ++ [a]) (y :: ys))) :=
        lev_cons_cons x y (xs ++ [a]) ys
      have hR3 : lev (x :: xs) ((y :: ys) ++ [b]) =
          if x = y then lev xs (ys ++ [b])
          else 1 + min (lev xs (ys ++ [b]))
            (min (lev (x :: xs) (ys ++ [b])) (lev xs ((y :: ys) ++ [b]))) :=
        lev_cons_cons x y xs (ys ++ [b])
      by_cases hxy : x = y
      · rw [if_pos hxy] at hL hR1 hR2 hR3
        by_cases hab : a = b
        · rw [if_pos hab] at h1 ⊢
          rw [hL, h1, hR1]
        · rw [if_neg hab] at h1 ⊢
          rw [hL, h1, hR1, hR2, hR3]
      · rw [if_neg hxy] at hL hR1 hR2 hR3
        by_cases hab : a = b
        · rw [if_pos hab] at h1 h2 h3 ⊢
          rw [hL, h1, h2, h3, hR1]
        · rw [if_neg hab] at h1 h2 h3 ⊢
          rw [hL, h1, h2, h3, hR1, hR2, hR3]
          exact min_nine_exchange _ _ _ _ _ _ _ _ _

theorem lev_snoc (xs ys : List α) (a b : α) :
    lev (xs ++ [a]) (ys ++ [b]) =
      if a = b then lev xs ys
      else 1 + min (lev xs ys) (min (lev (xs ++ [a]) ys) (lev xs (ys ++ [b]))) :=
  lev_snoc_aux (xs.length + ys.length) xs ys a b le_rfl

/-- The `_calc_per` DP table computes the Levenshtein distance of prefixes. -/
theorem levDP_eq_aux (ref hyp : List α) (n : ℕ) :
    ∀ i j, i + j ≤ n → i ≤ ref.length → j ≤ hyp.length →
      levDP ref hyp i j = lev (ref.take i) (hyp.take j) := by
  induction n with
  | zero =>
    intro i j hn hi hj
    have : i = 0 := by omega
    have : j = 0 := by omega
    subst_vars
    rw [levDP, List.take_zero, List.take_zero, lev_nil_left]
    rfl
  | succ n ih =>
    intro i j hn hi hj
    match i, j with
    | i, 0 =>
      rw [levDP, List.take_zero, lev_nil_right, List.length_take]
      omega
    | 0, j + 1 =>
      rw [levDP, List.take_zero, lev_nil_left, List.length_take]
      omega
    | i + 1, j + 1 =>
      have hi' : i < ref.length := by omega
      have hj' : j < hyp.length := by omega
      have hgi : ref[i]? = some (ref.get ⟨i, hi'⟩) := by
        rw [List.getElem?_eq_getElem hi']
        rfl
      have hgj : hyp[j]? = some (hyp.get ⟨j, hj'⟩) := by
        rw [List.getElem?_eq_getElem hj']
        rfl
      have htakei : ref.take (i + 1) = ref.take i ++ [ref.get ⟨i, hi'⟩] := by
        rw [List.take_succ, hgi]
        rfl
      have htakej : hyp.take (j + 1) = hyp.take j ++ [hyp.get ⟨j, hj'⟩] := by
        rw [List.take_succ, hgj]
        rfl
      have hsnoc := lev_snoc (ref.take i) (hyp.take j) (ref.get ⟨i, hi'⟩) (hyp.get ⟨j, hj'⟩)
      rw [← htakei, ← htakej] at hsnoc
      have e1 := ih i j (by omega) (by omega) (by omega)
      have e2 := ih (i + 1) j (by omega) (by omega) (by omega)
      have e3 := ih i (j + 1) (by omega) (by omega) (by omega)
      rw [levDP, hgi, hgj]
      by_cases hxy : ref.get ⟨i, hi'⟩ = hyp.get ⟨j, hj'⟩
      · have hcond : some (ref.get ⟨i, hi'⟩) = some (hyp.get ⟨j, hj'⟩) := by rw [hxy]
        rw [if_pos hcond, if_pos hxy] at *
        rw [e1, hsnoc]
      · have hcond : ¬ some (ref.get ⟨i, hi'⟩) = some (hyp.get ⟨j, hj'⟩) :=
          fun hc => hxy (Option.some_inj.mp hc)
        rw [if_neg hcond]
        rw [if_neg hxy] at hsnoc
        rw [e1, e2, e3, hsnoc]
        omega

theorem levDP_full (ref hyp : List α) :
    levDP ref hyp ref.length hyp.length = lev ref hyp := by
  have := levDP_eq_aux ref hyp (ref.length + hyp.length) ref.length hyp.length le_rfl
    le_rfl le_rfl
  rwa [List.take_length, List.take_length] at this

/-- Substituting one element keeps the edit distance at most 1. -/
theorem lev_set_le (xs : List α) : ∀ (i : ℕ) (s : α), lev xs (xs.set i s) ≤ 1 := by
  induction xs with
  | nil => intro i s; rw [List.set_nil, lev_nil_left]; simp
  | cons x t ih =>
    intro i s
    cases i with
    | zero =>
      rw [List.set_cons_zero, lev_cons_cons]
      by_cases hxs : x = s
      · rw [if_pos hxs, lev_self]; omega
      · rw [if_neg hxs, lev_self]
        simp
    | succ i =>
      rw [List.set_cons_succ, lev_cons_cons, if_pos rfl]
      exact ih i s

/-- Substituting one element for a non-matching symbol gives edit distance
exactly 1. -/
theorem lev_set_eq_one (xs : List α) (i : ℕ) (s : α) (hi : i < xs.length)
    (hs : s ≠ xs.get ⟨i, hi⟩) : lev xs (xs.set i s) = 1 := by
  have hle := lev_set_le xs i s
  have hne : xs ≠ xs.set i s := by
    intro hc
    have hv : (xs.set i s)[i]? = some s := by
      rw [List.getElem?_eq_getElem (by rwa [List.length_set])]
      simp [List.getElem_set]
    rw [← hc, List.getElem?_eq_getElem hi] at hv
    exact hs (Option.some_inj.mp hv).symm
  have hpos : lev xs (xs.set i s) ≠ 0 := fun h0 => hne (lev_eq_zero h0)
  omega

/-- C1: for a non-empty reference, `_calc_per` computes the Levenshtein edit
distance (unit costs) divided by the reference length; substituting exactly one
symbol of the reference for a non-matching symbol gives PER exactly `1/n`; and
`AudioScorer._calculate_per_similarity` reports `max(0, 1 - PER)`. -/
theorem claim_C1_per_is_normalized_edit_distance (ref hyp : List α) (href : ref ≠ []) :
    calcPer ref hyp = (lev ref hyp : ℚ) / ref.length ∧
    (∀ (i : ℕ) (s : α) (hi : i < ref.length), s ≠ ref.get ⟨i, hi⟩ →
      calcPer ref (ref.set i s) = 1 / ref.length) ∧
    scorerPerSimilarity ref hyp = max 0 (1 - calcPer ref hyp) := by
  have hlen : ¬ ref.length = 0 := fun h => href (List.length_eq_zero.mp h)
  refine ⟨?_, ?_, ?_⟩
  · rw [calcPer, if_neg hlen, levDP_full]
  · intro i s hi hs
    rw [calcPer, if_neg hlen, levDP_full, lev_set_eq_one ref i s hi hs, Nat.cast_one]
  · rw [scorerPerSimilarity, if_neg href, calcPer, if_neg hlen, levDP_full]

/-- Witness for C1 at a concrete input: reference `[0,1,2]`, hypothesis
`[0,5,2]` (one substitution) has PER `1/3`. -/
theorem claim_C1_per_is_normalized_edit_distance_witness :
    calcPer ([0, 1, 2] : List ℕ) [0, 5, 2] = (lev ([0, 1, 2] : List ℕ) [0, 5, 2] : ℚ) / 3 ∧
    calcPer ([0, 1, 2] : List ℕ) (([0, 1, 2] : List ℕ).set 1 5) = 1 / 3 := by
  have h := claim_C1_per_is_normalized_edit_distance ([0, 1, 2] : List ℕ) [0, 5, 2]
    (by decide)
  exact ⟨h.1, h.2.1 1 5 (by decide) (by decide)⟩

/-! ## Rating predictor (`predictor.RatingPredictor.predict`) and the
experiment scoring service (`scoring_service.predict_score`)

The fitted scaler and the trained models are loaded from files that are not
part of the sources, so they are modelled as arbitrary functions; every
statement below holds for every possible scaler/network output.

`RatingPredictor.predict` — the worker's 3-feature Rating Predictor — returns
only the clamped float `max(1.0, min(5.0, net(scaler(x))))`, embedded as
`ratingPredict`/`ratingPredictDict`; it computes no integer rounding, no
half-star rounding and no confidence label, and nothing else under the worker
sources does.  Those derived-value formulas appear only in the offline
experiment script `scoring_experiment/scripts/scoring_service.py`
(`predict_score`, an 8-metric random-forest service), embedded below as
`predict_score` and verified by `predict_score_derived_values`. -/

/-- The feature dict accepted by `RatingPredictor.predict`
(`score_PER`, `score_PPG`, `score_Energy`). -/
structure FeatureDict where
  score_PER : ℝ
  score_PPG : ℝ
  score_Energy : ℝ

/-- The dict branch of `RatingPredictor.predict` reads the three keys in the
fixed order `['score_PER', 'score_PPG', 'score_Energy']`. -/
def FeatureDict.toList (d : FeatureDict) : List ℝ :=
  [d.score_PER, d.score_PPG, d.score_Energy]

/-- `RatingPredictor.predict` on a feature list: scale, forward-pass, then
clamp with `max(1.0, min(5.0, prediction))`. -/
noncomputable def ratingPredict (scaler : List ℝ → List ℝ) (net : List ℝ → ℝ)
    (features : List ℝ) : ℝ :=
  max 1 (min 5 (net (scaler features)))

/-- `RatingPredictor.predict` on a feature dict. -/
noncomputable def ratingPredictDict (scaler : List ℝ → List ℝ) (net : List ℝ → ℝ)
    (d : FeatureDict) : ℝ :=
  ratingPredict scaler net d.toList

/-- C2: whatever the scaler and network produce, the score returned by
`RatingPredictor.predict` lies in `[1, 5]`, for dict inputs and for plain
feature lists alike (in particular for the all-zero feature vector). -/
theorem claim_C2_rating_clamp (scaler : List ℝ → List ℝ) (net : List ℝ → ℝ)
    (features : List ℝ) (d : FeatureDict) :
    1 ≤ ratingPredict scaler net features ∧ ratingPredict scaler net features ≤ 5 ∧
    1 ≤ ratingPredictDict scaler net d ∧ ratingPredictDict scaler net d ≤ 5 := by
  refine ⟨le_max_left _ _, ?_, le_max_left _ _, ?_⟩ <;>
    exact max_le (by norm_num) (min_le_left _ _)

/-- The eight metrics required by `scoring_service.predict_score`
(`_SCORE_COLUMNS` order). -/
structure Metrics8 where
  score_PER : ℝ
  score_PPG : ℝ
  score_WER : ℝ
  score_GOP : ℝ
  score_GPE_offset : ℝ
  score_FFE : ℝ
  score_Energy : ℝ
  score_VDE : ℝ

/-- The feature vector built by `predict_score`: error rates (`PER`, `WER`,
flagged `reverse` in `_METRIC_INFO`) are inverted to `1 - score`. -/
def Metrics8.features (m : Metrics8) : List ℝ :=
  [1 - m.score_PER, m.score_PPG, 1 - m.score_WER, m.score_GOP,
    m.score_GPE_offset, m.score_FFE, m.score_Energy, m.score_VDE]

/-- `np.round`: round half to even. -/
noncomputable def roundHalfEven (x : ℝ) : ℤ :=
  if x - ⌊x⌋ = 1 / 2 then (if Even ⌊x⌋ then ⌊x⌋ else ⌊x⌋ + 1) else round x

/-- Output record of `predict_score`. -/
structure RatingOutput where
  score : ℝ
  score_int : ℤ
  score_half : ℝ
  confidence : String

/-- `scoring_service.predict_score`: random-forest prediction (the model file
is not in the sources, so the regressor is an arbitrary function), clipped to
`[1, 5]`, with half-even integer rounding, half-star rounding, and a
confidence bucket from the distance to the rounded integer. -/
noncomputable def predict_score (model : List ℝ → ℝ) (m : Metrics8) : RatingOutput :=
  let predicted := min (max (model m.features) 1) 5
  let score_int := roundHalfEven predicted
  let score_half := (roundHalfEven (predicted * 2) : ℝ) / 2
  let conf : String :=
    if |predicted - (score_int : ℝ)| < 0.3 then "high"
    else if |predicted - (score_int : ℝ)| < 0.6 then "medium"
    else "low"
  ⟨predicted, score_int, score_half, conf⟩

/-- The distance to the half-even rounding equals the distance to the
half-up rounding: the two only differ at ties, where both distances are
`1/2`. -/
theorem abs_sub_roundHalfEven (x : ℝ) :
    |x - (roundHalfEven x : ℝ)| = |x - (round x : ℝ)| := by
  rw [roundHalfEven]
  by_cases htie : x - ⌊x⌋ = 1 / 2
  · rw [if_pos htie]
    set n := ⌊x⌋ with hn
    have hx : x = (n : ℝ) + 1 / 2 := by linarith
    have hplus : x + 1 / 2 = ((n + 1 : ℤ) : ℝ) := by push_cast; linarith
    have hround : round x = n + 1 := by rw [round_eq, hplus, Int.floor_intCast]
    have h1 : |x - (n : ℝ)| = 1 / 2 := by
      rw [hx, add_sub_cancel_left]
      norm_num
    have h2 : |x - ((n + 1 : ℤ) : ℝ)| = 1 / 2 := by
      have hval : x - ((n + 1 : ℤ) : ℝ) = -(1 / 2) := by push_cast; linarith
      rw [hval]
      norm_num
    rw [hround]
    by_cases heven : Even n
    · rw [if_pos heven, h1, h2]
    · rw [if_neg heven]
  · rw [if_neg htie]

/-- The derived values of the experiment script's `predict_score` (not of
`RatingPredictor.predict`, which returns only the bare clamped score): the
clamped score lies in `[1,5]`, `score_int` and `score_half` are the half-even
roundings, and the confidence label is determined by the distance
`|raw - round(raw)|` with thresholds `< 0.3` (high) and `< 0.6` (medium),
otherwise low. -/
theorem predict_score_derived_values (model : List ℝ → ℝ) (m : Metrics8) :
    1 ≤ (predict_score model m).score ∧ (predict_score model m).score ≤ 5 ∧
    (predict_score model m).score_int = roundHalfEven (predict_score model m).score ∧
    (predict_score model m).score_half =
      (roundHalfEven ((predict_score model m).score * 2) : ℝ) / 2 ∧
    (predict_score model m).confidence =
      (if |(predict_score model m).score - (round (predict_score model m).score : ℝ)| < 0.3
        then "high"
        else if |(predict_score model m).score - (round (predict_score model m).score : ℝ)| < 0.6
          then "medium" else "low") := by
  refine ⟨?_, ?_, rfl, rfl, ?_⟩
  · exact le_min (le_max_right _ _) (by norm_num)
  · exact min_le_right _ _
  · show (if |(predict_score model m).score - (roundHalfEven (predict_score model m).score : ℝ)|
        < 0.3 then "high"
      else if |(predict_score model m).score -
          (roundHalfEven (predict_score model m).score : ℝ)| < 0.6 then "medium" else "low") = _
    rw [abs_sub_roundHalfEven]

/-! ## CTC span decoder (`PhoneCTC.posteriors_and_spans`, decode part)

The decode part of `posteriors_and_spans` works on the frame-wise argmax token
sequence `ids` and the blank id.  It first builds the `collapsed` token list
(a blank resets `prev`, a non-blank differing from `prev` is appended), then
re-expands it to spans `(token, start_frame, end_frame)` with the second loop,
breaking out early when `collapsed` is exhausted, and finally flushes the open
span when `start` is set and `j` has not run past `collapsed`. -/

/-- The collapse loop: `prev` starts as `None`; a blank frame sets `prev` and
continues; a non-blank token is appended when it differs from `prev`. -/
def ctcCollapseAux (blank : ℕ) : List ℕ → Option ℕ → List ℕ
  | [], _ => []
  | pid :: rest, prev =>
    if pid = blank then ctcCollapseAux blank rest (some pid)
    else if some pid ≠ prev then pid :: ctcCollapseAux blank rest (some pid)
    else ctcCollapseAux blank rest (some pid)

def ctcCollapse (ids : List ℕ) (blank : ℕ) : List ℕ :=
  ctcCollapseAux blank ids none

/-- Mutable state of the span re-expansion loop: index `j` into `collapsed`,
current token `cur`, optional span start, last matching frame, emitted spans,
and whether the loop has hit `break`. -/
structure SpanState where
  j : ℕ
  cur : ℕ
  start : Option ℕ
  last : ℕ
  spans : List (ℕ × ℕ × ℕ)
  stopped : Bool
deriving DecidableEq

/-- One iteration of the re-expansion loop at frame `t` with argmax token
`pid`. -/
def spanStep (blank : ℕ) (collapsed : List ℕ) (t : ℕ) (pid : ℕ) (st : SpanState) : SpanState :=
  match st.stopped with
  | true => st
  | false =>
    if pid = blank then st
    else
      match st.start with
      | none => if pid = st.cur then { st with start := some t, last := t } else st
      | some s =>
        if pid = st.cur then { st with last := t }
        else
          if h : st.j + 1 < collapsed.length then
            let c := collapsed.get ⟨st.j + 1, h⟩
            { st with spans := st.spans ++ [(st.cur, s, st.last)], j := st.j + 1, cur := c, start := some t, last := t }
          else
            { st with spans := st.spans ++ [(st.cur, s, st.last)], j := st.j + 1, stopped := true }

def spanLoop (blank : ℕ) (collapsed : List ℕ) : ℕ → List ℕ → SpanState → SpanState
  | _, [], st => st
  | t, pid :: rest, st =>
    spanLoop blank collapsed (t + 1) rest (spanStep blank collapsed t pid st)

/-- The trailing flush after the re-expansion loop: the open span is emitted
when `start` is set and `j` has not run past `collapsed`. -/
def spanFinalize (collapsed : List ℕ) (st : SpanState) : List (ℕ × ℕ × ℕ) :=
  match st.start with
  | none => st.spans
  | some s =>
    if st.j < collapsed.length then st.spans ++ [(st.cur, s, st.last)] else st.spans

/-- The full decode of `posteriors_and_spans`: collapse, re-expand, then flush
the trailing open span. -/
def spansFromIds (ids : List ℕ) (blank : ℕ) : List (ℕ × ℕ × ℕ) :=
  if ctcCollapse ids blank = [] then []
  else
    spanFinalize (ctcCollapse ids blank)
      (spanLoop blank (ctcCollapse ids blank) 0 ids
        ⟨0, (ctcCollapse ids blank).headD 0, none, 0, [], false⟩)

/-- The transparent-blank span semantics stated by the spec: ignoring blank
frames, spans are the maximal runs of consecutive frames carrying the same
non-blank token, labelled with that token and bounded by its first and last
frame.  (Stated from the spec, for comparison with `spansFromIds`.) -/
def specSpansAux (blank : ℕ) : List (ℕ × ℕ) → Option (ℕ × ℕ × ℕ) → List (ℕ × ℕ × ℕ)
  | [], none => []
  | [], some cur => [cur]
  | (t, pid) :: rest, none =>
    if pid = blank then specSpansAux blank rest none
    else specSpansAux blank rest (some (pid, t, t))
  | (t, pid) :: rest, some (c, s, e) =>
    if pid = blank then specSpansAux blank rest (some (c, s, e))
    else if pid = c then specSpansAux blank rest (some (c, s, t))
    else (c, s, e) :: specSpansAux blank rest (some (pid, t, t))

def specTransparentSpans (ids : List ℕ) (blank : ℕ) : List (ℕ × ℕ × ℕ) :=
  specSpansAux blank ids.enum none

/-- C3: the decode loop violates the transparent-blank rule.  On the argmax
sequence `[1, blank, 1, 2]` the collapse step treats the blank as a separator
(`collapsed = [1, 1, 2]`) while the re-expansion merges across the blank, so
the cursor desynchronises: the code emits `[(1,0,2), (1,3,3)]`, labelling
frame 3 (whose argmax token is `2`) with token `1`, where the
transparent-blank semantics requires `[(1,0,2), (2,3,3)]`. -/
theorem claim_C3_transparent_blank_violated :
    spansFromIds [1, 0, 1, 2] 0 = [(1, 0, 2), (1, 3, 3)] ∧
    specTransparentSpans [1, 0, 1, 2] 0 = [(1, 0, 2), (2, 3, 3)] ∧
    spansFromIds [1, 0, 1, 2] 0 ≠ specTransparentSpans [1, 0, 1, 2] 0 := by
  refine ⟨by decide, by decide, by decide⟩

/-- Well-formedness of a span list: inclusive bounds are ordered within each
span, and the spans are strictly time-ordered and pairwise non-overlapping. -/
def SpansOK (spans : List (ℕ × ℕ × ℕ)) : Prop :=
  (∀ sp ∈ spans, sp.2.1 ≤ sp.2.2) ∧ spans.Pairwise fun a b => a.2.2 < b.2.1

/-- Loop invariant of the re-expansion loop before processing frame `t`. -/
def StInv (collapsed : List ℕ) (t : ℕ) (st : SpanState) : Prop :=
  SpansOK st.spans ∧
  (st.stopped = true → collapsed.length ≤ st.j) ∧
  (st.stopped = false →
    match st.start with
    | none => st.spans = []
    | some s => s ≤ st.last ∧ st.last < t ∧ ∀ sp ∈ st.spans, sp.2.2 < s)

theorem SpansOK_nil : SpansOK [] :=
  ⟨fun _ h => absurd h (List.not_mem_nil _), List.Pairwise.nil⟩

theorem SpansOK_append {spans : List (ℕ × ℕ × ℕ)} {c s l : ℕ}
    (hok : SpansOK spans) (hsl : s ≤ l) (hlt : ∀ sp ∈ spans, sp.2.2 < s) :
    SpansOK (spans ++ [(c, s, l)]) := by
  constructor
  · intro sp hsp
    rcases List.mem_append.mp hsp with h | h
    · exact hok.1 sp h
    · rw [List.mem_singleton] at h
      subst h
      exact hsl
  · rw [List.pairwise_append]
    refine ⟨hok.2, List.pairwise_singleton _ _, ?_⟩
    intro x hx y hy
    rw [List.mem_singleton] at hy
    subst hy
    exact hlt x hx

/-- One step of the re-expansion loop preserves the invariant. -/
theorem spanStep_inv (blank : ℕ) (collapsed : List ℕ) (t pid : ℕ) (st : SpanState)
    (h : StInv collapsed t st) : StInv collapsed (t + 1) (spanStep blank collapsed t pid st) := by
  obtain ⟨j, cur, start, last, spans, stopped⟩ := st
  obtain ⟨hok, hstop, hopen⟩ := h
  cases stopped with
  | true => exact ⟨hok, fun _ => hstop rfl, fun hc => Bool.noConfusion hc⟩
  | false =>
    have hopen' := hopen rfl
    cases start with
    | none =>
      have hsp : spans = [] := hopen'
      dsimp only [spanStep]
      by_cases hblank : pid = blank
      · rw [if_pos hblank]
        exact ⟨hok, fun hc => Bool.noConfusion hc, fun _ => hsp⟩
      · rw [if_neg hblank]
        by_cases hcur : pid = cur
        · rw [if_pos hcur]
          refine ⟨hok, fun hc => Bool.noConfusion hc, fun _ => ⟨le_rfl, Nat.lt_succ_self t, ?_⟩⟩
          rw [hsp]
          intro sp hsp'
          exact absurd hsp' (List.not_mem_nil _)
        · rw [if_neg hcur]
          exact ⟨hok, fun hc => Bool.noConfusion hc, fun _ => hsp⟩
    | some s =>
      have hopen2 : s ≤ last ∧ last < t ∧ ∀ sp ∈ spans, sp.2.2 < s := hopen'
      obtain ⟨hsle, hlast, hends⟩ := hopen2
      dsimp only [spanStep]
      by_cases hblank : pid = blank
      · rw [if_pos hblank]
        exact ⟨hok, fun hc => Bool.noConfusion hc, fun _ => ⟨hsle, Nat.lt_succ_of_lt hlast, hends⟩⟩
      · rw [if_neg hblank]
        by_cases hcur : pid = cur
        · rw [if_pos hcur]
          exact ⟨hok, fun hc => Bool.noConfusion hc, fun _ => ⟨le_trans hsle (le_of_lt hlast), Nat.lt_succ_self t, hends⟩⟩
        · rw [if_neg hcur]
          have hok' : SpansOK (spans ++ [(cur, s, last)]) := SpansOK_append hok hsle hends
          by_cases hj : j + 1 < collapsed.length
          · rw [dif_pos hj]
            refine ⟨hok', fun hc => Bool.noConfusion hc, fun _ => ⟨le_rfl, Nat.lt_succ_self t, ?_⟩⟩
            intro sp hsp'
            rcases List.mem_append.mp hsp' with hm | hm
            · have := hends sp hm
              omega
            · rw [List.mem_singleton] at hm
              subst hm
              exact hlast
          · rw [dif_neg hj]
            exact ⟨hok', fun _ => Nat.le_of_not_lt hj, fun hc => Bool.noConfusion hc⟩

/-- The re-expansion loop preserves the invariant. -/
theorem spanLoop_inv (blank : ℕ) (collapsed : List ℕ) :
    ∀ (rest : List ℕ) (t : ℕ) (st : SpanState), StInv collapsed t st →
      StInv collapsed (t + rest.length) (spanLoop blank collapsed t rest st) := by
  intro rest
  induction rest with
  | nil => intro t st h; exact h
  | cons p rest ih =>
    intro t st h
    have hstep := spanStep_inv blank collapsed t p st h
    have h2 := ih (t + 1) _ hstep
    have harith : t + 1 + rest.length = t + (p :: rest).length := by
      simp only [List.length_cons]
      omega
    rw [harith] at h2
    rw [spanLoop]
    exact h2

/-- The finalize step yields a well-formed span list from any invariant
state. -/
theorem spanFinalize_ok (collapsed : List ℕ) (t : ℕ) (st : SpanState)
    (h : StInv collapsed t st) : SpansOK (spanFinalize collapsed st) := by
  obtain ⟨hok, hstop, hopen⟩ := h
  rw [spanFinalize]
  cases hst : st.start with
  | none => exact hok
  | some s =>
    show SpansOK (if st.j < collapsed.length then st.spans ++ [(st.cur, s, st.last)] else st.spans)
    by_cases hj : st.j < collapsed.length
    · rw [if_pos hj]
      cases hstp : st.stopped with
      | true =>
        have := hstop hstp
        omega
      | false =>
        have ho := hopen hstp
        rw [hst] at ho
        exact SpansOK_append hok ho.1 ho.2.2
    · rw [if_neg hj]
      exact hok

/-- The span list produced by the decode loop is always well-formed. -/
theorem spansFromIds_ok (ids : List ℕ) (blank : ℕ) : SpansOK (spansFromIds ids blank) := by
  rw [spansFromIds]
  by_cases hc : ctcCollapse ids blank = []
  · rw [if_pos hc]
    exact SpansOK_nil
  · rw [if_neg hc]
    refine spanFinalize_ok _ (0 + ids.length) _ ?_
    refine spanLoop_inv blank _ ids 0 _ ?_
    exact ⟨SpansOK_nil, fun hc' => Bool.noConfusion hc', fun _ => rfl⟩

/-- Index of the first occurrence of `a`. -/
def firstOcc (a : ℕ) : List ℕ → ℕ
  | [] => 0
  | p :: rest => if p = a then 0 else 1 + firstOcc a rest

/-- Index of the last occurrence of `a` (for lists containing `a`). -/
def lastOcc (a : ℕ) : List ℕ → ℕ
  | [] => 0
  | _ :: rest => if a ∈ rest then 1 + lastOcc a rest else 0

theorem firstOcc_getElem (a : ℕ) :
    ∀ l : List ℕ, a ∈ l →
      l[firstOcc a l]? = some a ∧ ∀ k < firstOcc a l, l[k]? ≠ some a := by
  intro l
  induction l with
  | nil => intro h; cases h
  | cons p rest ih =>
    intro h
    by_cases hpa : p = a
    · subst hpa
      rw [firstOcc, if_pos rfl]
      exact ⟨List.getElem?_cons_zero, fun k hk => absurd hk (by omega)⟩
    · have hrest : a ∈ rest := by
        rcases List.mem_cons.mp h with h1 | h1
        · exact absurd h1.symm hpa
        · exact h1
      obtain ⟨h1, h2⟩ := ih hrest
      rw [firstOcc, if_neg hpa]
      constructor
      · rw [show 1 + firstOcc a rest = firstOcc a rest + 1 by omega, List.getElem?_cons_succ]
        exact h1
      · intro k hk
        cases k with
        | zero =>
          rw [List.getElem?_cons_zero]
          intro hcontra
          exact hpa (Option.some_inj.mp hcontra)
        | succ k =>
          rw [List.getElem?_cons_succ]
          exact h2 k (by omega)

theorem lastOcc_getElem (a : ℕ) :
    ∀ l : List ℕ, a ∈ l →
      l[lastOcc a l]? = some a ∧ ∀ k, lastOcc a l < k → l[k]? ≠ some a := by
  intro l
  induction l with
  | nil => intro h; cases h
  | cons p rest ih =>
    intro h
    by_cases hmem : a ∈ rest
    · obtain ⟨h1, h2⟩ := ih hmem
      rw [lastOcc, if_pos hmem]
      constructor
      · rw [show 1 + lastOcc a rest = lastOcc a rest + 1 by omega, List.getElem?_cons_succ]
        exact h1
      · intro k hk
        cases k with
        | zero => omega
        | succ k =>
          rw [List.getElem?_cons_succ]
          exact h2 k (by omega)
    · have hpa : p = a := by
        rcases List.mem_cons.mp h with h1 | h1
        · exact h1.symm
        · exact absurd h1 hmem
      rw [lastOcc, if_neg hmem]
      constructor
      · rw [List.getElem?_cons_zero, hpa]
      · intro k hk
        cases k with
        | zero => omega
        | succ k =>
          rw [List.getElem?_cons_succ]
          intro hcontra
          exact hmem (List.getElem?_mem hcontra)

/-- Every token in the collapsed list is a non-blank token of the input. -/
theorem ctcCollapseAux_mem (blank : ℕ) :
    ∀ (ids : List ℕ) (prev : Option ℕ) (x : ℕ),
      x ∈ ctcCollapseAux blank ids prev → x ∈ ids ∧ x ≠ blank := by
  intro ids
  induction ids with
  | nil =>
    intro prev x hx
    rw [ctcCollapseAux] at hx
    cases hx
  | cons p rest ih =>
    intro prev x hx
    rw [ctcCollapseAux] at hx
    by_cases hb : p = blank
    · rw [if_pos hb] at hx
      obtain ⟨h1, h2⟩ := ih _ x hx
      exact ⟨List.mem_cons_of_mem _ h1, h2⟩
    · rw [if_neg hb] at hx
      by_cases hprev : some p ≠ prev
      · rw [if_pos hprev] at hx
        rcases List.mem_cons.mp hx with h1 | h1
        · subst h1
          exact ⟨List.mem_cons_self _ _, hb⟩
        · obtain ⟨h2, h3⟩ := ih _ x h1
          exact ⟨List.mem_cons_of_mem _ h2, h3⟩
      · rw [if_neg hprev] at hx
        obtain ⟨h2, h3⟩ := ih _ x hx
        exact ⟨List.mem_cons_of_mem _ h2, h3⟩

/-- If the input contains a non-blank token, the collapsed list is non-empty
(for the initial `prev` values reachable from the start). -/
theorem ctcCollapseAux_single_ne_nil (blank a : ℕ) (ha : a ≠ blank) :
    ∀ (ids : List ℕ) (prev : Option ℕ), a ∈ ids → (prev = none ∨ prev = some blank) →
      ctcCollapseAux blank ids prev ≠ [] := by
  intro ids
  induction ids with
  | nil => intro prev h _; cases h
  | cons p rest ih =>
    intro prev h hprev
    rw [ctcCollapseAux]
    by_cases hb : p = blank
    · rw [if_pos hb]
      have hrest : a ∈ rest := by
        rcases List.mem_cons.mp h with h1 | h1
        · exact absurd (h1.trans hb) ha
        · exact h1
      exact ih (some p) hrest (Or.inr (by rw [hb]))
    · rw [if_neg hb]
      have hne : some p ≠ prev := by
        rcases hprev with h1 | h1 <;> rw [h1] <;> simp [hb]
      rw [if_pos hne]
      simp


/-- Trace of the re-expansion loop when every frame is blank or one fixed
non-blank token `a`: the cursor never advances, no span is emitted inside the
loop, and `start`/`last` track the first/last occurrence of `a`. -/
theorem spanLoop_single (blank a : ℕ) (ha : a ≠ blank) (collapsed : List ℕ) :
    ∀ (rest : List ℕ) (t : ℕ) (st : SpanState),
      (∀ p ∈ rest, p = blank ∨ p = a) →
      st.cur = a → st.j = 0 → st.stopped = false →
      ((spanLoop blank collapsed t rest st).j = 0 ∧
       (spanLoop blank collapsed t rest st).cur = a ∧
       (spanLoop blank collapsed t rest st).stopped = false ∧
       (spanLoop blank collapsed t rest st).spans = st.spans) ∧
      (a ∉ rest →
        (spanLoop blank collapsed t rest st).start = st.start ∧
        (spanLoop blank collapsed t rest st).last = st.last) ∧
      (a ∈ rest →
        (spanLoop blank collapsed t rest st).start =
          (match st.start with
           | none => some (t + firstOcc a rest)
           | some s => some s) ∧
        (spanLoop blank collapsed t rest st).last = t + lastOcc a rest) := by
  intro rest
  induction rest with
  | nil =>
    intro t st _ hcur hj hstp
    exact ⟨⟨hj, hcur, hstp, rfl⟩, fun _ => ⟨rfl, rfl⟩,
      fun hmem => absurd hmem (List.not_mem_nil a)⟩
  | cons p rest ih =>
    intro t st hall hcur hj hstp
    obtain ⟨j0, cur0, start0, last0, spans0, stopped0⟩ := st
    have hcur0 : a = cur0 := hcur.symm
    have hj0 : j0 = 0 := hj
    have hstp0 : stopped0 = false := hstp
    subst hcur0; subst hj0; subst hstp0
    have hall' : ∀ q ∈ rest, q = blank ∨ q = a :=
      fun q hq => hall q (List.mem_cons_of_mem _ hq)
    rcases hall p (List.mem_cons_self p rest) with hp | hp
    · have hpa : ¬ p = a := fun hc => ha (hc.symm.trans hp)
      have hstep : spanStep blank collapsed t p ⟨0, a, start0, last0, spans0, false⟩ =
          ⟨0, a, start0, last0, spans0, false⟩ := by
        dsimp only [spanStep]
        rw [if_pos hp]
      rw [spanLoop, hstep]
      have hres := ih (t + 1) ⟨0, a, start0, last0, spans0, false⟩ hall' rfl rfl rfl
      refine ⟨hres.1, ?_, ?_⟩
      · intro hnot
        exact hres.2.1 fun hc => hnot (List.mem_cons_of_mem _ hc)
      · intro hmem
        have hmem' : a ∈ rest := by
          rcases List.mem_cons.mp hmem with h1 | h1
          · exact absurd (h1.trans hp) ha
          · exact h1
        obtain ⟨hs, hl⟩ := hres.2.2 hmem'
        have hfo : firstOcc a (p :: rest) = 1 + firstOcc a rest := by
          rw [firstOcc, if_neg hpa]
        have hlo : lastOcc a (p :: rest) = 1 + lastOcc a rest := by
          rw [lastOcc, if_pos hmem']
        constructor
        · rw [hs, hfo]
          cases start0 with
          | none =>
            show some (t + 1 + firstOcc a rest) = some (t + (1 + firstOcc a rest))
            congr 1
            omega
          | some s => rfl
        · rw [hl, hlo]
          omega
    · have hpb : ¬ p = blank := fun hc => ha (hp.symm.trans hc)
      cases start0 with
      | none =>
        have hstep : spanStep blank collapsed t p ⟨0, a, none, last0, spans0, false⟩ =
            ⟨0, a, some t, t, spans0, false⟩ := by
          dsimp only [spanStep]
          rw [if_neg hpb, if_pos hp]
        rw [spanLoop, hstep]
        have hres := ih (t + 1) ⟨0, a, some t, t, spans0, false⟩ hall' rfl rfl rfl
        have hfo : firstOcc a (p :: rest) = 0 := by
          rw [firstOcc, if_pos hp]
        refine ⟨hres.1, fun hnot => absurd (List.mem_cons.mpr (Or.inl hp.symm)) hnot, ?_⟩
        intro _
        by_cases hmem : a ∈ rest
        · obtain ⟨hs, hl⟩ := hres.2.2 hmem
          constructor
          · rw [hs]
            show (some t : Option ℕ) = some (t + firstOcc a (p :: rest))
            rw [hfo]
            rfl
          · rw [hl, lastOcc, if_pos hmem]
            omega
        · obtain ⟨hs, hl⟩ := hres.2.1 hmem
          constructor
          · rw [hs]
            show (some t : Option ℕ) = some (t + firstOcc a (p :: rest))
            rw [hfo]
            rfl
          · rw [hl]
            show t = t + lastOcc a (p :: rest)
            rw [lastOcc, if_neg hmem]
            rfl
      | some s0 =>
        have hstep : spanStep blank collapsed t p ⟨0, a, some s0, last0, spans0, false⟩ =
            ⟨0, a, some s0, t, spans0, false⟩ := by
          dsimp only [spanStep]
          rw [if_neg hpb, if_pos hp]
        rw [spanLoop, hstep]
        have hres := ih (t + 1) ⟨0, a, some s0, t, spans0, false⟩ hall' rfl rfl rfl
        refine ⟨hres.1, fun hnot => absurd (List.mem_cons.mpr (Or.inl hp.symm)) hnot, ?_⟩
        intro _
        by_cases hmem : a ∈ rest
        · obtain ⟨hs, hl⟩ := hres.2.2 hmem
          constructor
          · rw [hs]
          · rw [hl, lastOcc, if_pos hmem]
            omega
        · obtain ⟨hs, hl⟩ := hres.2.1 hmem
          constructor
          · rw [hs]
          · rw [hl]
            show t = t + lastOcc a (p :: rest)
            rw [lastOcc, if_neg hmem]
            rfl

/-- C6: span invariants of the decode loop: `start ≤ end` for every span, the
spans are strictly time-ordered and pairwise non-overlapping, an all-blank (or
empty) sequence yields zero spans, and a sequence whose only distinct
non-blank token is `a` yields exactly one span from the first to the last
occurrence frame of `a`. -/
theorem claim_C6_span_invariants (ids : List ℕ) (blank : ℕ) :
    (∀ sp ∈ spansFromIds ids blank, sp.2.1 ≤ sp.2.2) ∧
    ((spansFromIds ids blank).Pairwise fun x y => x.2.2 < y.2.1) ∧
    ((∀ p ∈ ids, p = blank) → spansFromIds ids blank = []) ∧
    (∀ a, a ≠ blank → a ∈ ids → (∀ p ∈ ids, p = blank ∨ p = a) →
      ∃ s e, spansFromIds ids blank = [(a, s, e)] ∧
        ids[s]? = some a ∧ ids[e]? = some a ∧
        ∀ k, ids[k]? = some a → s ≤ k ∧ k ≤ e) := by
  have hok := spansFromIds_ok ids blank
  refine ⟨hok.1, hok.2, ?_, ?_⟩
  · intro hall
    have hc : ctcCollapse ids blank = [] := by
      rw [List.eq_nil_iff_forall_not_mem]
      intro x hx
      obtain ⟨h1, h2⟩ := ctcCollapseAux_mem blank ids none x hx
      exact h2 (hall x h1)
    rw [spansFromIds, if_pos hc]
  · intro a ha hmem hall
    have hc : ctcCollapse ids blank ≠ [] :=
      ctcCollapseAux_single_ne_nil blank a ha ids none hmem (Or.inl rfl)
    have hclen : 0 < (ctcCollapse ids blank).length := List.length_pos.mpr hc
    have hhead : (ctcCollapse ids blank).headD 0 = a := by
      have hh : (ctcCollapse ids blank).headD 0 ∈ ctcCollapse ids blank := by
        cases hcc : ctcCollapse ids blank with
        | nil => exact absurd hcc hc
        | cons c cs => simp [List.headD]
      obtain ⟨h1, h2⟩ := ctcCollapseAux_mem blank ids none _ hh
      rcases hall _ h1 with h3 | h3
      · exact absurd h3 h2
      · exact h3
    have hloop := spanLoop_single blank a ha (ctcCollapse ids blank) ids 0
      ⟨0, a, none, 0, [], false⟩ hall rfl rfl rfl
    obtain ⟨⟨hj, hcur, hstp, hspans⟩, _, hsome⟩ := hloop
    obtain ⟨hs, hl⟩ := hsome hmem
    have hs' : (spanLoop blank (ctcCollapse ids blank) 0 ids
        ⟨0, a, none, 0, [], false⟩).start = some (0 + firstOcc a ids) := hs
    refine ⟨firstOcc a ids, lastOcc a ids, ?_, (firstOcc_getElem a ids hmem).1,
      (lastOcc_getElem a ids hmem).1, ?_⟩
    · rw [spansFromIds, if_neg hc, hhead, spanFinalize, hs']
      show (if (spanLoop blank (ctcCollapse ids blank) 0 ids
            ⟨0, a, none, 0, [], false⟩).j < (ctcCollapse ids blank).length then
          (spanLoop blank (ctcCollapse ids blank) 0 ids ⟨0, a, none, 0, [], false⟩).spans ++
            [((spanLoop blank (ctcCollapse ids blank) 0 ids ⟨0, a, none, 0, [], false⟩).cur,
              0 + firstOcc a ids,
              (spanLoop blank (ctcCollapse ids blank) 0 ids ⟨0, a, none, 0, [], false⟩).last)]
        else (spanLoop blank (ctcCollapse ids blank) 0 ids ⟨0, a, none, 0, [], false⟩).spans) =
        [(a, firstOcc a ids, lastOcc a ids)]
      rw [hj, if_pos hclen, hspans, hcur, hl]
      show [] ++ [(a, 0 + firstOcc a ids, 0 + lastOcc a ids)] = _
      rw [List.nil_append, Nat.zero_add, Nat.zero_add]
    · intro k hk
      constructor
      · by_contra hlt
        exact (firstOcc_getElem a ids hmem).2 k (by omega) hk
      · by_contra hlt
        exact (lastOcc_getElem a ids hmem).2 k (by omega) hk

/-- Witness for C6 at concrete inputs: `[0,0,0]` (all blank) yields zero
spans, and `[2,0,2]` yields the single span `(2, 0, 2)`. -/
theorem claim_C6_span_invariants_witness :
    spansFromIds [0, 0, 0] 0 = [] ∧
    (∃ s e, spansFromIds [2, 0, 2] 0 = [(2, s, e)] ∧
      ([2, 0, 2] : List ℕ)[s]? = some 2 ∧ ([2, 0, 2] : List ℕ)[e]? = some 2 ∧
      ∀ k, ([2, 0, 2] : List ℕ)[k]? = some 2 → s ≤ k ∧ k ≤ e) :=
  ⟨(claim_C6_span_invariants [0, 0, 0] 0).2.2.1 (by decide),
    (claim_C6_span_invariants [2, 0, 2] 0).2.2.2 2 (by decide) (by decide) (by decide)⟩

/-! ## DTW alignment (`SpeechMetrics.dtw_alignment`, `cal_wer_gop._align_ppgs`)

Both routines fill an `(n+1)×(m+1)` accumulated-cost matrix initialised to the
`inf` sentinel (modelled by `⊤ : WithTop ℝ`) with `dtw[0,0] = 0`, then
backtrack from `(n, m)` choosing the first minimum among the predecessor
cells.  `dtw_alignment` restricts the fill to a Sakoe-Chiba band
`band = max(|n-m|, max(n,m)//10)` and orders the backtrack candidates
`[diag, up, left]`; `_align_ppgs` fills the full matrix and orders them
`[up, left, diag]`.  The frame-distance values (floating-point euclidean or
cosine distances in the source) enter as the cost function `c`. -/

/-- The Sakoe-Chiba band of `dtw_alignment`: `max(abs(n - m), max(n, m) // 10)`. -/
def dtwBand (n m : ℕ) : ℕ := max (max n m - min n m) (max n m / 10)

/-- The banded accumulated-cost matrix of `dtw_alignment` (indices as in the
source: entry `(i, j)` for `1 ≤ i ≤ n`, `max(1, i-band) ≤ j ≤ min(m, i+band)`
is filled, everything else keeps the `inf` sentinel except `dtw[0,0] = 0`). -/
noncomputable def dtwMat (c : ℕ → ℕ → ℝ) (n m : ℕ) : ℕ → ℕ → WithTop ℝ
  | 0, 0 => 0
  | 0, _ + 1 => ⊤
  | _ + 1, 0 => ⊤
  | i + 1, j + 1 =>
    if i + 1 ≤ n ∧ max 1 (i + 1 - dtwBand n m) ≤ j + 1 ∧ j + 1 ≤ min m (i + 1 + dtwBand n m) then
      ((c i j : ℝ) : WithTop ℝ) +
        min (dtwMat c n m i (j + 1)) (min (dtwMat c n m (i + 1) j) (dtwMat c n m i j))
    else ⊤
termination_by i j => i + j

/-- Backtrack of `dtw_alignment` in appended (reverse) order: at matrix cell
`(i+1, j+1)` the pair `(i, j)` is recorded and the step follows
`np.argmin([dtw[i-1,j-1], dtw[i-1,j], dtw[i,j-1]])` (first minimum wins);
at the borders the remaining indices are walked straight down to `(0, 0)`. -/
noncomputable def dtwRevPath (A : ℕ → ℕ → WithTop ℝ) : ℕ → ℕ → List (ℕ × ℕ)
  | 0, 0 => []
  | i + 1, 0 => (i, 0) :: dtwRevPath A i 0
  | 0, j + 1 => (0, j) :: dtwRevPath A 0 j
  | i + 1, j + 1 =>
    (i, j) ::
      (if A i j ≤ A i (j + 1) ∧ A i j ≤ A (i + 1) j then dtwRevPath A i j
       else if A i (j + 1) ≤ A (i + 1) j then dtwRevPath A i (j + 1)
       else dtwRevPath A (i + 1) j)
termination_by i j => i + j

/-- `SpeechMetrics.dtw_alignment`: banded fill, backtrack, then reverse. -/
noncomputable def dtwAlignmentPath (c : ℕ → ℕ → ℝ) (n m : ℕ) : List (ℕ × ℕ) :=
  (dtwRevPath (dtwMat c n m) n m).reverse

/-- The full (unbanded) accumulated-cost matrix of `_align_ppgs`. -/
noncomputable def accMat (c : ℕ → ℕ → ℝ) : ℕ → ℕ → WithTop ℝ
  | 0, 0 => 0
  | 0, _ + 1 => ⊤
  | _ + 1, 0 => ⊤
  | i + 1, j + 1 =>
    ((c i j : ℝ) : WithTop ℝ) +
      min (accMat c i (j + 1)) (min (accMat c (i + 1) j) (accMat c i j))
termination_by i j => i + j

/-- Backtrack of `_align_ppgs` in appended (reverse) order: candidates are
`(acc[i-1,j], acc[i,j-1], acc[i-1,j-1])`, move `0` decrements `i`, move `1`
decrements `j`, otherwise both. -/
noncomputable def ppgRevPath (A : ℕ → ℕ → WithTop ℝ) : ℕ → ℕ → List (ℕ × ℕ)
  | 0, 0 => []
  | i + 1, 0 => (i, 0) :: ppgRevPath A i 0
  | 0, j + 1 => (0, j) :: ppgRevPath A 0 j
  | i + 1, j + 1 =>
    (i, j) ::
      (if A i (j + 1) ≤ A (i + 1) j ∧ A i (j + 1) ≤ A i j then ppgRevPath A i (j + 1)
       else if A (i + 1) j ≤ A i j then ppgRevPath A (i + 1) j
       else ppgRevPath A i j)
termination_by i j => i + j

/-- `cal_wer_gop._align_ppgs`: full fill, backtrack, then reverse. -/
noncomputable def alignPpgsPath (c : ℕ → ℕ → ℝ) (n m : ℕ) : List (ℕ × ℕ) :=
  (ppgRevPath (accMat c) n m).reverse

/-- One step of a DTW alignment path: monotonically non-decreasing in both
coordinates, at most one unit per coordinate, strictly advancing. -/
def PathStep (a b : ℕ × ℕ) : Prop :=
  a.1 ≤ b.1 ∧ b.1 ≤ a.1 + 1 ∧ a.2 ≤ b.2 ∧ b.2 ≤ a.2 + 1 ∧ a.1 + a.2 < b.1 + b.2

/-- The alignment-path invariants claimed for the backtracking routines. -/
def PathOK (path : List (ℕ × ℕ)) (n m : ℕ) : Prop :=
  path.head? = some (0, 0) ∧ path.getLast? = some (n - 1, m - 1) ∧
  max n m ≤ path.length ∧ (∀ p ∈ path, p.1 < n ∧ p.2 < m) ∧
  path.Chain' PathStep ∧
  (∀ k, k < n → ∃ jj, (k, jj) ∈ path) ∧ (∀ k, k < m → ∃ ii, (ii, k) ∈ path)

/-- If a list has a head, consing onto it does not change the last element. -/
theorem getLast?_cons_of_head? {β : Type} (a x : β) (l : List β) (h : l.head? = some x) :
    (a :: l).getLast? = l.getLast? := by
  cases l with
  | nil => simp at h
  | cons y t => exact List.getLast?_cons_cons

/-- Core invariants of the DTW backtracking loops, proved for any function `F`
producing the reverse path, given only the shape of its recursion: the border
walks, and that an interior step appends `(i, j)` and recurses diagonally, or
upward (only with `0 < i`), or leftward (only with `0 < j`). -/
theorem revPath_spec (F : ℕ → ℕ → List (ℕ × ℕ))
    (h00 : F 0 0 = [])
    (hi0 : ∀ i, F (i + 1) 0 = (i, 0) :: F i 0)
    (h0j : ∀ j, F 0 (j + 1) = (0, j) :: F 0 j)
    (hij : ∀ i j, F (i + 1) (j + 1) = (i, j) :: F i j ∨
      (0 < i ∧ F (i + 1) (j + 1) = (i, j) :: F i (j + 1)) ∨
      (0 < j ∧ F (i + 1) (j + 1) = (i, j) :: F (i + 1) j)) :
    ∀ N i j, i + j ≤ N →
      (∀ p ∈ F i j, p.1 < max i 1 ∧ p.2 < max j 1) ∧
      (0 < i + j → (F i j).head? = some (i - 1, j - 1)) ∧
      (0 < i + j → (F i j).getLast? = some (0, 0)) ∧
      max i j ≤ (F i j).length ∧
      List.Chain' (fun a b => PathStep b a) (F i j) ∧
      (∀ k, k < i → ∃ jj, (k, jj) ∈ F i j) ∧
      (∀ k, k < j → ∃ ii, (ii, k) ∈ F i j) := by
  intro N
  induction N with
  | zero =>
    intro i j hle
    have hi : i = 0 := by omega
    have hj : j = 0 := by omega
    subst hi; subst hj
    rw [h00]
    refine ⟨by simp, by omega, by omega, by simp, List.chain'_nil, ?_, ?_⟩
    · intro k hk; omega
    · intro k hk; omega
  | succ N IH =>
    intro i j hle
    match i, j with
    | 0, 0 =>
      rw [h00]
      refine ⟨by simp, by omega, by omega, by simp, List.chain'_nil, ?_, ?_⟩
      · intro k hk; omega
      · intro k hk; omega
    | i + 1, 0 =>
      obtain ⟨IHmem, IHhead, IHlast, IHlen, IHchain, IHcov1, _⟩ := IH i 0 (by omega)
      rw [hi0 i]
      refine ⟨?_, ?_, ?_, ?_, ?_, ?_, ?_⟩
      · intro p hp
        rcases List.mem_cons.mp hp with hp | hp
        · subst hp; constructor <;> [skip; skip] <;> omega
        · have := IHmem p hp; omega
      · intro _; rfl
      · intro _
        cases i with
        | zero => rw [h00]; simp
        | succ ii =>
          have hh := IHhead (by omega)
          rw [getLast?_cons_of_head? _ _ _ hh]
          exact IHlast (by omega)
      · simp only [List.length_cons]; omega
      · refine List.chain'_cons'.mpr ⟨?_, IHchain⟩
        intro b hb
        cases i with
        | zero => rw [h00] at hb; simp at hb
        | succ ii =>
          rw [IHhead (by omega)] at hb
          have hb' : b = (ii + 1 - 1, (0 : ℕ) - 1) := by
            injection hb with hb'; exact hb'.symm
          subst hb'
          show ii + 1 - 1 ≤ ii + 1 ∧ ii + 1 ≤ ii + 1 - 1 + 1 ∧ (0:ℕ) - 1 ≤ 0 ∧
            (0:ℕ) ≤ (0:ℕ) - 1 + 1 ∧ (ii + 1 - 1) + ((0:ℕ) - 1) < ii + 1 + 0
          omega
      · intro k hk
        rcases Nat.lt_succ_iff_lt_or_eq.mp hk with hk | hk
        · obtain ⟨jj, hjj⟩ := IHcov1 k hk
          exact ⟨jj, List.mem_cons_of_mem _ hjj⟩
        · subst hk; exact ⟨0, List.mem_cons_self _ _⟩
      · intro k hk; omega
    | 0, j + 1 =>
      obtain ⟨IHmem, IHhead, IHlast, IHlen, IHchain, _, IHcov2⟩ := IH 0 j (by omega)
      rw [h0j j]
      refine ⟨?_, ?_, ?_, ?_, ?_, ?_, ?_⟩
      · intro p hp
        rcases List.mem_cons.mp hp with hp | hp
        · subst hp; constructor <;> [skip; skip] <;> omega
        · have := IHmem p hp; omega
      · intro _; rfl
      · intro _
        cases j with
        | zero => rw [h00]; simp
        | succ jj =>
          have hh := IHhead (by omega)
          rw [getLast?_cons_of_head? _ _ _ hh]
          exact IHlast (by omega)
      · simp only [List.length_cons]; omega
      · refine List.chain'_cons'.mpr ⟨?_, IHchain⟩
        intro b hb
        cases j with
        | zero => rw [h00] at hb; simp at hb
        | succ jj =>
          rw [IHhead (by omega)] at hb
          have hb' : b = ((0 : ℕ) - 1, jj + 1 - 1) := by
            injection hb with hb'; exact hb'.symm
          subst hb'
          show (0:ℕ) - 1 ≤ 0 ∧ (0:ℕ) ≤ (0:ℕ) - 1 + 1 ∧ jj + 1 - 1 ≤ jj + 1 ∧
            jj + 1 ≤ jj + 1 - 1 + 1 ∧ ((0:ℕ) - 1) + (jj + 1 - 1) < 0 + (jj + 1)
          omega
      · intro k hk; omega
      · intro k hk
        rcases Nat.lt_succ_iff_lt_or_eq.mp hk with hk | hk
        · obtain ⟨ii, hii⟩ := IHcov2 k hk
          exact ⟨ii, List.mem_cons_of_mem _ hii⟩
        · subst hk; exact ⟨0, List.mem_cons_self _ _⟩
    | i + 1, j + 1 =>
      rcases hij i j with heq | ⟨hipos, heq⟩ | ⟨hjpos, heq⟩
      · obtain ⟨IHmem, IHhead, IHlast, IHlen, IHchain, IHcov1, IHcov2⟩ := IH i j (by omega)
        rw [heq]
        refine ⟨?_, ?_, ?_, ?_, ?_, ?_, ?_⟩
        · intro p hp
          rcases List.mem_cons.mp hp with hp | hp
          · subst hp; constructor <;> [skip; skip] <;> omega
          · have := IHmem p hp; omega
        · intro _; rfl
        · intro _
          rcases Nat.eq_zero_or_pos (i + j) with hz | hz
          · have hi : i = 0 := by omega
            have hj : j = 0 := by omega
            subst hi; subst hj; rw [h00]; simp
          · rw [getLast?_cons_of_head? _ _ _ (IHhead hz)]
            exact IHlast hz
        · simp only [List.length_cons]; omega
        · refine List.chain'_cons'.mpr ⟨?_, IHchain⟩
          intro b hb
          rcases Nat.eq_zero_or_pos (i + j) with hz | hz
          · have hi : i = 0 := by omega
            have hj : j = 0 := by omega
            subst hi; subst hj; rw [h00] at hb; simp at hb
          · rw [IHhead hz] at hb
            have hb' : b = (i - 1, j - 1) := by injection hb with hb'; exact hb'.symm
            subst hb'
            show i - 1 ≤ i ∧ i ≤ i - 1 + 1 ∧ j - 1 ≤ j ∧ j ≤ j - 1 + 1 ∧
              (i - 1) + (j - 1) < i + j
            omega
        · intro k hk
          rcases Nat.lt_succ_iff_lt_or_eq.mp hk with hk | hk
          · obtain ⟨jj, hjj⟩ := IHcov1 k hk
            exact ⟨jj, List.mem_cons_of_mem _ hjj⟩
          · subst hk; exact ⟨j, List.mem_cons_self _ _⟩
        · intro k hk
          rcases Nat.lt_succ_iff_lt_or_eq.mp hk with hk | hk
          · obtain ⟨ii, hii⟩ := IHcov2 k hk
            exact ⟨ii, List.mem_cons_of_mem _ hii⟩
          · subst hk; exact ⟨i, List.mem_cons_self _ _⟩
      · obtain ⟨IHmem, IHhead, IHlast, IHlen, IHchain, IHcov1, IHcov2⟩ :=
          IH i (j + 1) (by omega)
        rw [heq]
        refine ⟨?_, ?_, ?_, ?_, ?_, ?_, ?_⟩
        · intro p hp
          rcases List.mem_cons.mp hp with hp | hp
          · subst hp; constructor <;> [skip; skip] <;> omega
          · have := IHmem p hp; omega
        · intro _; rfl
        · intro _
          rw [getLast?_cons_of_head? _ _ _ (IHhead (by omega))]
          exact IHlast (by omega)
        · simp only [List.length_cons]; omega
        · refine List.chain'_cons'.mpr ⟨?_, IHchain⟩
          intro b hb
          rw [IHhead (by omega)] at hb
          have hb' : b = (i - 1, j + 1 - 1) := by injection hb with hb'; exact hb'.symm
          subst hb'
          show i - 1 ≤ i ∧ i ≤ i - 1 + 1 ∧ j + 1 - 1 ≤ j ∧ j ≤ j + 1 - 1 + 1 ∧
            (i - 1) + (j + 1 - 1) < i + j
          omega
        · intro k hk
          rcases Nat.lt_succ_iff_lt_or_eq.mp hk with hk | hk
          · obtain ⟨jj, hjj⟩ := IHcov1 k hk
            exact ⟨jj, List.mem_cons_of_mem _ hjj⟩
          · subst hk; exact ⟨j, List.mem_cons_self _ _⟩
        · intro k hk
          obtain ⟨ii, hii⟩ := IHcov2 k hk
          exact ⟨ii, List.mem_cons_of_mem _ hii⟩
      · obtain ⟨IHmem, IHhead, IHlast, IHlen, IHchain, IHcov1, IHcov2⟩ :=
          IH (i + 1) j (by omega)
        rw [heq]
        refine ⟨?_, ?_, ?_, ?_, ?_, ?_, ?_⟩
        · intro p hp
          rcases List.mem_cons.mp hp with hp | hp
          · subst hp; constructor <;> [skip; skip] <;> omega
          · have := IHmem p hp; omega
        · intro _; rfl
        · intro _
          rw [getLast?_cons_of_head? _ _ _ (IHhead (by omega))]
          exact IHlast (by omega)
        · simp only [List.length_cons]; omega
        · refine List.chain'_cons'.mpr ⟨?_, IHchain⟩
          intro b hb
          rw [IHhead (by omega)] at hb
          have hb' : b = (i + 1 - 1, j - 1) := by injection hb with hb'; exact hb'.symm
          subst hb'
          show i + 1 - 1 ≤ i ∧ i ≤ i + 1 - 1 + 1 ∧ j - 1 ≤ j ∧ j ≤ j - 1 + 1 ∧
            (i + 1 - 1) + (j - 1) < i + j
          omega
        · intro k hk
          obtain ⟨jj, hjj⟩ := IHcov1 k hk
          exact ⟨jj, List.mem_cons_of_mem _ hjj⟩
        · intro k hk
          rcases Nat.lt_succ_iff_lt_or_eq.mp hk with hk | hk
          · obtain ⟨ii, hii⟩ := IHcov2 k hk
            exact ⟨ii, List.mem_cons_of_mem _ hii⟩
          · subst hk; exact ⟨i, List.mem_cons_self _ _⟩

/-- Transport of `revPath_spec` to the reversed (forward) path. -/
theorem revPath_pathOK (F : ℕ → ℕ → List (ℕ × ℕ))
    (h00 : F 0 0 = [])
    (hi0 : ∀ i, F (i + 1) 0 = (i, 0) :: F i 0)
    (h0j : ∀ j, F 0 (j + 1) = (0, j) :: F 0 j)
    (hij : ∀ i j, F (i + 1) (j + 1) = (i, j) :: F i j ∨
      (0 < i ∧ F (i + 1) (j + 1) = (i, j) :: F i (j + 1)) ∨
      (0 < j ∧ F (i + 1) (j + 1) = (i, j) :: F (i + 1) j))
    (n m : ℕ) (hn : 0 < n) (hm : 0 < m) : PathOK (F n m).reverse n m := by
  obtain ⟨hmem, hhead, hlast, hlen, hchain, hcov1, hcov2⟩ :=
    revPath_spec F h00 hi0 h0j hij (n + m) n m le_rfl
  refine ⟨?_, ?_, ?_, ?_, ?_, ?_, ?_⟩
  · rw [List.head?_reverse]; exact hlast (by omega)
  · rw [List.getLast?_reverse]; exact hhead (by omega)
  · rw [List.length_reverse]; exact hlen
  · intro p hp
    have := hmem p (List.mem_reverse.mp hp)
    omega
  · exact List.chain'_reverse.mpr hchain
  · intro k hk
    obtain ⟨jj, hjj⟩ := hcov1 k hk
    exact ⟨jj, List.mem_reverse.mpr hjj⟩
  · intro k hk
    obtain ⟨ii, hii⟩ := hcov2 k hk
    exact ⟨ii, List.mem_reverse.mpr hii⟩

/-- With `inf` sentinels on the first row and column of the accumulated-cost
matrix, the `dtw_alignment` backtrack never moves up from row 1 nor left from
column 1: the interior step has the shape required by `revPath_spec`. -/
theorem dtwRevPath_shape (A : ℕ → ℕ → WithTop ℝ)
    (hrow : ∀ k, A 0 (k + 1) = ⊤) (hcol : ∀ k, A (k + 1) 0 = ⊤) :
    ∀ i j, dtwRevPath A (i + 1) (j + 1) = (i, j) :: dtwRevPath A i j ∨
      (0 < i ∧ dtwRevPath A (i + 1) (j + 1) = (i, j) :: dtwRevPath A i (j + 1)) ∨
      (0 < j ∧ dtwRevPath A (i + 1) (j + 1) = (i, j) :: dtwRevPath A (i + 1) j) := by
  intro i j
  rw [dtwRevPath]
  by_cases h1 : A i j ≤ A i (j + 1) ∧ A i j ≤ A (i + 1) j
  · rw [if_pos h1]; exact Or.inl rfl
  · rw [if_neg h1]
    by_cases h2 : A i (j + 1) ≤ A (i + 1) j
    · rw [if_pos h2]
      refine Or.inr (Or.inl ⟨?_, rfl⟩)
      cases i with
      | zero =>
        rw [hrow j] at h2
        have hl := top_le_iff.mp h2
        exact absurd ⟨by rw [hrow j]; exact le_top, by rw [hl]; exact le_top⟩ h1
      | succ ii => exact Nat.succ_pos ii
    · rw [if_neg h2]
      refine Or.inr (Or.inr ⟨?_, rfl⟩)
      cases j with
      | zero => exact absurd (by rw [hcol i]; exact le_top) h2
      | succ jj => exact Nat.succ_pos jj

/-- Same shape property for the `_align_ppgs` backtrack; here excluding an
upward move out of row 1 additionally needs that interior cells are finite. -/
theorem ppgRevPath_shape (A : ℕ → ℕ → WithTop ℝ) (h00 : A 0 0 ≠ ⊤)
    (hrow : ∀ k, A 0 (k + 1) = ⊤) (hcol : ∀ k, A (k + 1) 0 = ⊤)
    (hfin : ∀ i j, A (i + 1) (j + 1) ≠ ⊤) :
    ∀ i j, ppgRevPath A (i + 1) (j + 1) = (i, j) :: ppgRevPath A i j ∨
      (0 < i ∧ ppgRevPath A (i + 1) (j + 1) = (i, j) :: ppgRevPath A i (j + 1)) ∨
      (0 < j ∧ ppgRevPath A (i + 1) (j + 1) = (i, j) :: ppgRevPath A (i + 1) j) := by
  intro i j
  rw [ppgRevPath]
  by_cases h1 : A i (j + 1) ≤ A (i + 1) j ∧ A i (j + 1) ≤ A i j
  · rw [if_pos h1]
    refine Or.inr (Or.inl ⟨?_, rfl⟩)
    cases i with
    | zero =>
      rw [hrow j] at h1
      cases j with
      | zero => exact absurd (top_le_iff.mp h1.2) h00
      | succ jj => exact absurd (top_le_iff.mp h1.1) (hfin 0 jj)
    | succ ii => exact Nat.succ_pos ii
  · rw [if_neg h1]
    by_cases h2 : A (i + 1) j ≤ A i j
    · rw [if_pos h2]
      refine Or.inr (Or.inr ⟨?_, rfl⟩)
      cases j with
      | zero =>
        rw [hcol i] at h2
        cases i with
        | zero => exact absurd (top_le_iff.mp h2) h00
        | succ ii =>
          exact absurd ⟨by rw [hcol (ii + 1)]; exact le_top, by rw [top_le_iff.mp h2]; exact le_top⟩ h1
      | succ jj => exact Nat.succ_pos jj
    · rw [if_neg h2]; exact Or.inl rfl

theorem dtwMat_zero (c : ℕ → ℕ → ℝ) (n m : ℕ) : dtwMat c n m 0 0 = 0 := by rw [dtwMat]

theorem dtwMat_row0 (c : ℕ → ℕ → ℝ) (n m k : ℕ) : dtwMat c n m 0 (k + 1) = ⊤ := by
  rw [dtwMat]

theorem dtwMat_col0 (c : ℕ → ℕ → ℝ) (n m k : ℕ) : dtwMat c n m (k + 1) 0 = ⊤ := by
  rw [dtwMat]

theorem accMat_zero (c : ℕ → ℕ → ℝ) : accMat c 0 0 = 0 := by rw [accMat]

theorem accMat_row0 (c : ℕ → ℕ → ℝ) (k : ℕ) : accMat c 0 (k + 1) = ⊤ := by rw [accMat]

theorem accMat_col0 (c : ℕ → ℕ → ℝ) (k : ℕ) : accMat c (k + 1) 0 = ⊤ := by rw [accMat]

/-- Interior cells of the full `_align_ppgs` matrix are always finite. -/
theorem accMat_ne_top (c : ℕ → ℕ → ℝ) :
    ∀ N i j, i + j ≤ N → accMat c (i + 1) (j + 1) ≠ ⊤ := by
  intro N
  induction N with
  | zero =>
    intro i j h
    have hi : i = 0 := by omega
    have hj : j = 0 := by omega
    subst hi; subst hj
    rw [accMat, accMat_row0, accMat_col0, accMat_zero]
    simp
  | succ N IHN =>
    intro i j _
    rw [accMat]
    refine WithTop.add_ne_top.mpr ⟨WithTop.coe_ne_top, ?_⟩
    intro hm
    rw [min_eq_top, min_eq_top] at hm
    cases i with
    | zero =>
      cases j with
      | zero =>
        rw [accMat_zero] at hm
        exact absurd hm.2.2 (by simp)
      | succ jj => exact IHN 0 jj (by omega) hm.2.1
    | succ ii => exact IHN ii j (by omega) hm.1

/-- The `dtw_alignment` path satisfies all the claimed invariants, for any
cost function and any nonempty pair of sequences. -/
theorem dtwAlignmentPath_ok (c : ℕ → ℕ → ℝ) (n m : ℕ) (hn : 0 < n) (hm : 0 < m) :
    PathOK (dtwAlignmentPath c n m) n m := by
  refine revPath_pathOK (dtwRevPath (dtwMat c n m)) ?_ ?_ ?_ ?_ n m hn hm
  · rw [dtwRevPath]
  · intro i; rw [dtwRevPath]
  · intro j; rw [dtwRevPath]
  · exact dtwRevPath_shape (dtwMat c n m) (dtwMat_row0 c n m) (dtwMat_col0 c n m)

/-- The `_align_ppgs` path satisfies all the claimed invariants, for any
cost function and any nonempty pair of posteriorgrams. -/
theorem alignPpgsPath_ok (c : ℕ → ℕ → ℝ) (n m : ℕ) (hn : 0 < n) (hm : 0 < m) :
    PathOK (alignPpgsPath c n m) n m := by
  refine revPath_pathOK (ppgRevPath (accMat c)) ?_ ?_ ?_ ?_ n m hn hm
  · rw [ppgRevPath]
  · intro i; rw [ppgRevPath]
  · intro j; rw [ppgRevPath]
  · refine ppgRevPath_shape (accMat c) ?_ (accMat_row0 c) (accMat_col0 c) ?_
    · rw [accMat_zero]; simp
    · intro i j; exact accMat_ne_top c (i + j) i j le_rfl

/-- C7: for nonempty inputs, both DTW backtracking routines
(`SpeechMetrics.dtw_alignment` and `cal_wer_gop._align_ppgs`) return a path
that starts at `(0, 0)`, ends at `(n-1, m-1)`, has length at least
`max n m`, stays inside the index ranges, advances monotonically with steps
of at most one per coordinate, and covers every index of both sequences. -/
theorem claim_C7_alignment_path_invariants (c c2 : ℕ → ℕ → ℝ) (n m : ℕ)
    (hn : 0 < n) (hm : 0 < m) :
    PathOK (dtwAlignmentPath c n m) n m ∧ PathOK (alignPpgsPath c2 n m) n m :=
  ⟨dtwAlignmentPath_ok c n m hn hm, alignPpgsPath_ok c2 n m hn hm⟩

/-- Witness for C7 at two concrete length-2 inputs with zero cost. -/
theorem claim_C7_alignment_path_invariants_witness :
    PathOK (dtwAlignmentPath (fun _ _ => (0 : ℝ)) 2 2) 2 2 ∧
      PathOK (alignPpgsPath (fun _ _ => (0 : ℝ)) 2 2) 2 2 :=
  claim_C7_alignment_path_invariants (fun _ _ => (0 : ℝ)) (fun _ _ => (0 : ℝ)) 2 2
    (by norm_num) (by norm_num)

/-! ## PPG JSD similarity (`phoneme_ppg._jsd_divergence`, `_dtw_distance`,
`_ppg_jsd_similarity`)

Posteriorgrams enter as lists of per-frame probability rows (the `exp` of the
log-posteriorgrams of the source); removing the blank column and
renormalising with `logsumexp` in log space is division by the row sum in
probability space.  The `"jsd"` metric branch (the default, and the one the
spec describes) is embedded. -/

/-- `_jsd_divergence` with its `eps = 1e-12` smoothing. -/
noncomputable def jsdDivergence (p q : List ℝ) : ℝ :=
  let eps : ℝ := 1 / 10 ^ 12
  let m := List.zipWith (fun a b => (a + b) / 2) p q
  let klpm :=
    (List.zipWith (fun a b => (a + eps) * (Real.log (a + eps) - Real.log (b + eps))) p m).sum
  let klqm :=
    (List.zipWith (fun a b => (a + eps) * (Real.log (a + eps) - Real.log (b + eps))) q m).sum
  (klpm + klqm) / 2

/-- Drop the blank column of one probability row. -/
def removeBlank (blank : ℕ) (row : List ℝ) : List ℝ := row.eraseIdx blank

/-- Renormalise one probability row to sum 1. -/
noncomputable def renormRow (row : List ℝ) : List ℝ := row.map (fun a => a / row.sum)

/-- Blank removal followed by renormalisation, as done per frame. -/
noncomputable def removeBlankRenorm (blank : ℕ) (row : List ℝ) : List ℝ :=
  renormRow (removeBlank blank row)

/-- Every `d`-th element starting at the offset countdown `k` (`k = 0` keeps). -/
def strideEvery {β : Type} (d : ℕ) : List β → ℕ → List β
  | [], _ => []
  | x :: rest, 0 => x :: strideEvery d rest (d - 1)
  | _ :: rest, k + 1 => strideEvery d rest k

/-- `P[::d]` when `d > 1`, else the list unchanged (the `downsample` step). -/
def downsampleList {β : Type} (d : ℕ) (l : List β) : List β :=
  if 1 < d then strideEvery d l 0 else l

/-- `int(abs(na - nb) * 1.5 + 50)`, the auto-widened band suggestion. -/
def suggestedBand (na nb : ℕ) : ℕ := 3 * (max na nb - min na nb) / 2 + 50

/-- The band auto-adjustment of `_ppg_jsd_similarity`: an explicit band is
raised to `suggestedBand` when both lengths are positive, their ratio exceeds
`1.2` (`5·max > 6·min`), and the given band is smaller; `None` stays global. -/
def autoBand (na nb : ℕ) : Option ℕ → Option ℕ
  | none => none
  | some b =>
    if 0 < min na nb ∧ 6 * min na nb < 5 * max na nb ∧ b < suggestedBand na nb then
      some (suggestedBand na nb)
    else some b

/-- The frame-distance matrix `D` of `_ppg_jsd_similarity` (`"jsd"` metric):
inside the band (rows `max(0, i-band) ≤ j < min(nb, i+band+1)`) the JSD of the
two frames, outside it the `1e6` sentinel; without a band, always the JSD. -/
noncomputable def ppgD (Pa Pb : List (List ℝ)) (band : Option ℕ) (i j : ℕ) : ℝ :=
  match band with
  | none => jsdDivergence (Pa.getD i []) (Pb.getD j [])
  | some b =>
    if i ≤ j + b ∧ j < i + b + 1 ∧ j < Pb.length then
      jsdDivergence (Pa.getD i []) (Pb.getD j [])
    else 10 ^ 6

/-- Eliminator for the `inf` sentinel of an accumulated DTW cost. -/
noncomputable def withTopElim (x : WithTop ℝ) (ftop : ℝ) (f : ℝ → ℝ) : ℝ :=
  WithTop.recTopCoe ftop f x

theorem withTopElim_top (ftop : ℝ) (f : ℝ → ℝ) : withTopElim ⊤ ftop f = ftop := rfl

theorem withTopElim_coe (a ftop : ℝ) (f : ℝ → ℝ) :
    withTopElim ((a : ℝ) : WithTop ℝ) ftop f = f a := rfl

/-- `_ppg_jsd_similarity` (jsd metric): blank removal and renormalisation,
downsampling, band auto-adjustment, the `_dtw_distance` accumulation
(`acc[i,j] = D[i-1,j-1] + min(acc[i-1,j], acc[i,j-1], acc[i-1,j-1])` from an
`inf`-initialised matrix with `acc[0,0] = 0`), normalisation by `na + nb`,
then `max(0, min(1, exp(-dist)))`; an `inf` accumulated cost gives 0. -/
noncomputable def ppgJsdSimilarity (Pa0 Pb0 : List (List ℝ)) (blank : ℕ)
    (band : Option ℕ) (d : ℕ) : ℝ :=
  let Pa := downsampleList d (Pa0.map (removeBlankRenorm blank))
  let Pb := downsampleList d (Pb0.map (removeBlankRenorm blank))
  withTopElim
    (accMat (ppgD Pa Pb (autoBand Pa.length Pb.length band)) Pa.length Pb.length) 0
    (fun a => max 0 (min 1 (Real.exp (-(a / (Pa.length + Pb.length))))))

/-- The auto-widen property claimed by C4, as it actually holds for the one
routine that implements it (`_ppg_jsd_similarity` with an explicit band). -/
def PpgBandAutoWiden (Pa Pb : List (List ℝ)) (b : ℕ) : Prop :=
  ∃ b2, autoBand Pa.length Pb.length (some b) = some b2 ∧
    suggestedBand Pa.length Pb.length ≤ b2 ∧
    ∀ i j, i < Pa.length → j < Pb.length → i ≤ j + b2 → j ≤ i + b2 →
      ppgD Pa Pb (some b2) i j = jsdDivergence (Pa.getD i []) (Pb.getD j [])

/-- C4 (amended): when the two (post-blank-removal, post-downsampling)
posteriorgrams are nonempty and their length ratio exceeds 1.2, the banded PPG
distance widens any explicit band to at least `|na-nb|*1.5 + 50`, and every
cell of the distance matrix inside that widened corridor is the computed JSD
value, not the sentinel.  (`SpeechMetrics.dtw_alignment`, by contrast, never
auto-widens its band: see the counterexample.) -/
theorem claim_C4_ppg_band_autowiden (Pa Pb : List (List ℝ)) (b : ℕ)
    (hmin : 0 < min Pa.length Pb.length)
    (hratio : 6 * min Pa.length Pb.length < 5 * max Pa.length Pb.length) :
    PpgBandAutoWiden Pa Pb b := by
  refine ⟨max b (suggestedBand Pa.length Pb.length), ?_, le_max_right _ _, ?_⟩
  · show autoBand Pa.length Pb.length (some b) = _
    rw [autoBand]
    by_cases hb : b < suggestedBand Pa.length Pb.length
    · rw [if_pos ⟨hmin, hratio, hb⟩, Nat.max_eq_right (Nat.le_of_lt hb)]
    · rw [if_neg (fun h => hb h.2.2), Nat.max_eq_left (Nat.le_of_not_lt hb)]
  · intro i j _ hj hib hjb
    show ppgD Pa Pb (some _) i j = _
    rw [ppgD]
    rw [if_pos ⟨hib, by omega, hj⟩]

/-- Witness for the amended C4 at lengths 12 and 5 with explicit band 3. -/
theorem claim_C4_ppg_band_autowiden_witness :
    PpgBandAutoWiden (List.replicate 12 ([] : List ℝ)) (List.replicate 5 ([] : List ℝ)) 3 :=
  claim_C4_ppg_band_autowiden _ _ 3 (by simp) (by simp)

/-- C4 counterexample: `SpeechMetrics.dtw_alignment` never widens its band.
For two constant sequences of lengths `n = 10` and `m = 5` (ratio 2 > 1.2),
the cell `(i, j) = (10, 1)` lies inside the corridor `|i-j| ≤ |n-m|*1.5 + 50`
the claim promises to compute, yet the matrix leaves it at the `inf`
sentinel, because the band stays `max(|n-m|, max(n,m)//10) = 5 < 9 = |i-j|`. -/
theorem claim_C4_dtw_alignment_no_autowiden :
    6 * min 10 5 < 5 * max 10 5 ∧
    10 - 1 ≤ suggestedBand 10 5 ∧
    dtwMat (fun i j => |(List.replicate 10 (0 : ℝ)).getD i 0 -
      (List.replicate 5 (0 : ℝ)).getD j 0|) 10 5 10 1 = ⊤ := by
  refine ⟨by norm_num, by norm_num [suggestedBand], ?_⟩
  show dtwMat _ 10 5 (9 + 1) (0 + 1) = ⊤
  rw [dtwMat, if_neg]
  intro h
  have h2 := h.2.1
  rw [show dtwBand 10 5 = 5 by rfl] at h2
  omega

/-! ## Prosodic features and the Energy metric
(`SpeechMetrics.align_features`, `SpeechMetrics.calculate_energy_similarity`)

`extract_features` produces three equal-length per-frame arrays `f0`,
`intensity`, `voiced`; `align_features` normalises `f0` and `intensity` by
`max(np.max(np.abs(x)), 1e-6)`, stacks them with `voiced` as a third column,
runs `dtw_alignment` on the stacked rows and applies the path's indices to
the original arrays; `calculate_energy_similarity` is
`(corrcoef + 1)/2` of the two aligned intensity arrays, with `0.0` for a NaN
correlation (modelled by `Option ℝ`: `none` iff a centered sum of squares
vanishes). -/

structure ProsodyFeat where
  f0 : List ℝ
  intensity : List ℝ
  voiced : List Bool

/-- `np.max(np.abs(x))` (0 for the empty list; `abs` makes this exact). -/
noncomputable def maxAbs (x : List ℝ) : ℝ := (x.map (fun v => |v|)).foldr max 0

/-- `_safe_norm`: divide by `max(np.max(np.abs(x)), 1e-6)`. -/
noncomputable def safeNorm (x : List ℝ) : List ℝ :=
  x.map (fun v => v / max (maxAbs x) (1 / 10 ^ 6))

/-- Row `k` of the stacked, normalised feature matrix (`voiced` cast 0/1). -/
noncomputable def combinedRow (f : ProsodyFeat) (k : ℕ) : ℝ × ℝ × ℝ :=
  ((safeNorm f.f0).getD k 0, (safeNorm f.intensity).getD k 0,
    if f.voiced.getD k false then 1 else 0)

/-- Euclidean distance of two stacked rows. -/
noncomputable def euclid3 (a b : ℝ × ℝ × ℝ) : ℝ :=
  Real.sqrt ((a.1 - b.1) ^ 2 + (a.2.1 - b.2.1) ^ 2 + (a.2.2 - b.2.2) ^ 2)

/-- The frame-cost function `align_features` hands to `dtw_alignment`. -/
noncomputable def prosodyCost (f1 f2 : ProsodyFeat) (i j : ℕ) : ℝ :=
  euclid3 (combinedRow f1 i) (combinedRow f2 j)

/-- The DTW path of `align_features` (frame counts are the `f0` lengths;
`column_stack` forces all three arrays of one side to share that length). -/
noncomputable def alignPath (f1 f2 : ProsodyFeat) : List (ℕ × ℕ) :=
  dtwAlignmentPath (prosodyCost f1 f2) f1.f0.length f2.f0.length

/-- `aligned_feat1['intensity']`: the reference intensities along the path. -/
noncomputable def alignedIntensity1 (f1 f2 : ProsodyFeat) : List ℝ :=
  (alignPath f1 f2).map (fun p => f1.intensity.getD p.1 0)

/-- `aligned_feat2['intensity']`: the test intensities along the path. -/
noncomputable def alignedIntensity2 (f1 f2 : ProsodyFeat) : List ℝ :=
  (alignPath f1 f2).map (fun p => f2.intensity.getD p.2 0)

noncomputable def listMean (l : List ℝ) : ℝ := l.sum / l.length

noncomputable def centered (l : List ℝ) : List ℝ := l.map (fun v => v - listMean l)

/-- `np.corrcoef(x, y)[0, 1]`: the normalisation factors `1/(n-1)` cancel,
leaving `Σ dx·dy / (√Σdx² · √Σdy²)`; a vanishing denominator factor is the
NaN case, modelled by `none`. -/
noncomputable def sqSum (l : List ℝ) : ℝ := (l.map (fun v => v ^ 2)).sum

noncomputable def pearsonCorr (x y : List ℝ) : Option ℝ :=
  if sqSum (centered x) = 0 ∨ sqSum (centered y) = 0 then none
  else some ((List.zipWith (fun a b => a * b) (centered x) (centered y)).sum /
    (Real.sqrt (sqSum (centered x)) * Real.sqrt (sqSum (centered y))))

/-- `SpeechMetrics.calculate_energy_similarity` on extracted features:
`(corr + 1)/2`, or `0.0` when the correlation is NaN. -/
noncomputable def calculate_energy_similarity (f1 f2 : ProsodyFeat) : ℝ :=
  match pearsonCorr (alignedIntensity1 f1 f2) (alignedIntensity2 f1 f2) with
  | none => 0
  | some r => (r + 1) / 2

/-- `phoneme_ppg.calculate_ppg_similarity` after posteriorgram extraction:
the `< 5` frame guard, the JSD+DTW similarity, and the final clamp. -/
noncomputable def calculate_ppg_similarity (Pa Pb : List (List ℝ)) (blank : ℕ)
    (band : Option ℕ) (d : ℕ) : ℝ :=
  if Pa.length < 5 ∨ Pb.length < 5 then 0
  else max 0 (min 1 (ppgJsdSimilarity Pa Pb blank band d))

/-- `phoneme_gop.calculate_gop_similarity` after posteriorgram extraction:
only the `< 5` frame guard is relevant to the degenerate-input claim, so the
remainder of the computation (downsampling, span alignment, per-phone DTW and
aggregation) is abstracted as an arbitrary continuation `rest`. -/
noncomputable def calculate_gop_similarity (Pa Pb : List (List ℝ))
    (rest : List (List ℝ) → List (List ℝ) → ℝ) : ℝ :=
  if Pa.length < 5 ∨ Pb.length < 5 then 0 else rest Pa Pb

theorem getD_mem_of_lt {l : List ℝ} {k : ℕ} (h : k < l.length) (d : ℝ) :
    l.getD k d ∈ l := by
  rw [List.getD_eq_getElem l d h]
  exact List.getElem_mem h

/-- A constant list has zero centered sum of squares. -/
theorem centered_sq_sum_eq_zero {l : List ℝ} {c : ℝ} (hne : l ≠ [])
    (hconst : ∀ v ∈ l, v = c) : sqSum (centered l) = 0 := by
  rw [sqSum]
  have hmean : listMean l = c := by
    have hsum : l.sum = l.length • c := List.sum_eq_card_nsmul l c hconst
    have hlen : (l.length : ℝ) ≠ 0 := by
      have := List.length_pos.mpr hne
      positivity
    rw [listMean, hsum, nsmul_eq_mul]
    field_simp
  apply List.sum_eq_zero
  intro x hx
  obtain ⟨v, hv, hvx⟩ := List.mem_map.mp hx
  obtain ⟨w, hw, hwv⟩ := List.mem_map.mp hv
  rw [← hvx, ← hwv, hmean, hconst w hw, sub_self]
  ring

/-- C5: the degenerate-input guards.  An empty reference gives PER 0 and PER
similarity 0; an empty phone list on either side gives PER similarity 0; a
posteriorgram with fewer than 5 frames gives PPG similarity 0 and GOP
similarity 0 (whatever the rest of the GOP computation would do); a constant
intensity signal makes the correlation NaN and Energy similarity 0. -/
theorem claim_C5_degenerate_sentinels
    (hyp tst b1 b2 : List α) (hb : b1 = [] ∨ b2 = [])
    (Pa Pb : List (List ℝ)) (blank : ℕ) (band : Option ℕ) (d : ℕ)
    (hshort : Pa.length < 5 ∨ Pb.length < 5)
    (Ga Gb : List (List ℝ)) (grest : List (List ℝ) → List (List ℝ) → ℝ)
    (hgshort : Ga.length < 5 ∨ Gb.length < 5)
    (f1 f2 : ProsodyFeat) (c : ℝ)
    (hlen1 : f1.intensity.length = f1.f0.length) (hn1 : 0 < f1.f0.length)
    (hn2 : 0 < f2.f0.length) (hconst : ∀ v ∈ f1.intensity, v = c) :
    calcPer ([] : List α) hyp = 0 ∧
    scorerPerSimilarity ([] : List α) tst = 0 ∧
    calculatePerSimilarity b1 b2 = 0 ∧
    calculate_ppg_similarity Pa Pb blank band d = 0 ∧
    calculate_gop_similarity Ga Gb grest = 0 ∧
    calculate_energy_similarity f1 f2 = 0 := by
  refine ⟨by simp [calcPer], by simp [scorerPerSimilarity], ?_, ?_, ?_, ?_⟩
  · rw [calculatePerSimilarity, if_pos hb]
  · rw [calculate_ppg_similarity, if_pos hshort]
  · rw [calculate_gop_similarity, if_pos hgshort]
  · obtain ⟨_, _, hplen, hpmem, _, _, _⟩ :=
      dtwAlignmentPath_ok (prosodyCost f1 f2) f1.f0.length f2.f0.length hn1 hn2
    have hpne : alignPath f1 f2 ≠ [] := by
      rw [alignPath]
      intro hnil
      rw [hnil] at hplen
      simp only [List.length_nil, Nat.le_zero, Nat.max_eq_zero_iff] at hplen
      omega
    have hane : alignedIntensity1 f1 f2 ≠ [] := by
      rw [alignedIntensity1]
      simpa using hpne
    have haconst : ∀ v ∈ alignedIntensity1 f1 f2, v = c := by
      intro v hv
      obtain ⟨p, hp, hpv⟩ := List.mem_map.mp hv
      have hbnd : p.1 < f1.intensity.length := by
        rw [hlen1]
        exact (hpmem p hp).1
      rw [← hpv]
      exact hconst _ (getD_mem_of_lt hbnd 0)
    have hnone : pearsonCorr (alignedIntensity1 f1 f2) (alignedIntensity2 f1 f2) = none := by
      rw [pearsonCorr, if_pos (Or.inl (centered_sq_sum_eq_zero hane haconst))]
    rw [calculate_energy_similarity, hnone]

/-- Witness for C5 at concrete degenerate inputs. -/
theorem claim_C5_degenerate_sentinels_witness :
    calcPer ([] : List ℕ) [0] = 0 ∧
    scorerPerSimilarity ([] : List ℕ) [0] = 0 ∧
    calculatePerSimilarity ([] : List ℕ) [0] = 0 ∧
    calculate_ppg_similarity [] [[1]] 0 none 3 = 0 ∧
    calculate_gop_similarity [] [] (fun _ _ => 37) = 0 ∧
    calculate_energy_similarity ⟨[0, 0], [1, 1], [false, false]⟩ ⟨[0], [2], [false]⟩ = 0 :=
  claim_C5_degenerate_sentinels [0] [0] [] [0] (Or.inl rfl)
    [] [[1]] 0 none 3 (Or.inl (by simp))
    [] [] (fun _ _ => 37) (Or.inl (by simp))
    ⟨[0, 0], [1, 1], [false, false]⟩ ⟨[0], [2], [false]⟩ 1
    (by simp) (by simp) (by simp) (by simp)

/-! ## GOP phone-level DTW (`phoneme_gop._dtw_phone`) -/

/-- The per-pair cost of `_dtw_phone`: for equal phone ids, GOP difference
plus `lam`-weighted duration difference; otherwise the fixed penalty `1.5`. -/
noncomputable def phoneCost (lam : ℝ) (a b : ℕ × ℝ × ℕ) : ℝ :=
  if a.1 = b.1 then |a.2.1 - b.2.1| + lam * |(a.2.2 : ℝ) - (b.2.2 : ℝ)| else 3 / 2

/-- The column range of `_dtw_phone`'s fill loop: `jmin ≤ j ≤ jmax` with
`jmin = 1` (`max(1, i-band)` with a band) and `jmax = m` (`min(m, i+band)`). -/
def phoneInBand (band : Option ℕ) (m i j : ℕ) : Prop :=
  match band with
  | none => j ≤ m
  | some b => max 1 (i - b) ≤ j ∧ j ≤ min m (i + b)

instance phoneInBandDec (band : Option ℕ) (m i j : ℕ) : Decidable (phoneInBand band m i j) :=
  match band with
  | none => inferInstanceAs (Decidable (j ≤ m))
  | some _ => inferInstanceAs (Decidable (_ ∧ _))

/-- The `_dtw_phone` cost matrix: `inf`-initialised, `D[0,0] = 0`, and for
`1 ≤ i ≤ n`, `jmin ≤ j ≤ jmax` (the optional band),
`D[i,j] = min(D[i-1,j] + 0.5, D[i,j-1] + 0.5, D[i-1,j-1] + cost)`. -/
noncomputable def dtwPhoneD (ga gb : List (ℕ × ℝ × ℕ)) (lam : ℝ) (band : Option ℕ) :
    ℕ → ℕ → WithTop ℝ
  | 0, 0 => 0
  | 0, _ + 1 => ⊤
  | _ + 1, 0 => ⊤
  | i + 1, j + 1 =>
    if i + 1 ≤ ga.length ∧ phoneInBand band gb.length (i + 1) (j + 1) then
      min (dtwPhoneD ga gb lam band i (j + 1) + ((1 / 2 : ℝ) : WithTop ℝ))
        (min (dtwPhoneD ga gb lam band (i + 1) j + ((1 / 2 : ℝ) : WithTop ℝ))
          (dtwPhoneD ga gb lam band i j +
            ((phoneCost lam (ga.getD i default) (gb.getD j default) : ℝ) : WithTop ℝ)))
    else ⊤
termination_by i j => i + j

/-- `_dtw_phone`: `0.0` on an empty side, else `exp(-(D[n,m]/(n+m))/tau)`,
with an `inf` matrix corner giving `0.0`. -/
noncomputable def dtwPhone (ga gb : List (ℕ × ℝ × ℕ)) (tau lam : ℝ)
    (band : Option ℕ) : ℝ :=
  if ga = [] ∨ gb = [] then 0
  else withTopElim (dtwPhoneD ga gb lam band ga.length gb.length) 0
    (fun d => Real.exp (-(d / (ga.length + gb.length)) / tau))

theorem phoneCost_comm (lam : ℝ) (a b : ℕ × ℝ × ℕ) :
    phoneCost lam a b = phoneCost lam b a := by
  rw [phoneCost, phoneCost]
  by_cases h : a.1 = b.1
  · rw [if_pos h, if_pos h.symm, abs_sub_comm, abs_sub_comm (a.2.2 : ℝ)]
  · rw [if_neg h, if_neg (fun h2 => h h2.symm)]

theorem phoneInBand_symm {band : Option ℕ} {n m i j : ℕ} :
    (i + 1 ≤ n ∧ phoneInBand band m (i + 1) (j + 1)) ↔
      (j + 1 ≤ m ∧ phoneInBand band n (j + 1) (i + 1)) := by
  cases band with
  | none => exact and_comm
  | some b =>
    simp only [phoneInBand]
    omega

/-- The `_dtw_phone` matrix is symmetric under transposition of its inputs. -/
theorem dtwPhoneD_symm (ga gb : List (ℕ × ℝ × ℕ)) (lam : ℝ) (band : Option ℕ) :
    ∀ N i j, i + j ≤ N →
      dtwPhoneD ga gb lam band i j = dtwPhoneD gb ga lam band j i := by
  intro N
  induction N with
  | zero =>
    intro i j h
    have hi : i = 0 := by omega
    have hj : j = 0 := by omega
    subst hi; subst hj; rw [dtwPhoneD, dtwPhoneD]
  | succ N IHN =>
    intro i j _
    match i, j with
    | 0, 0 => rw [dtwPhoneD, dtwPhoneD]
    | 0, j + 1 => rw [dtwPhoneD, dtwPhoneD]
    | i + 1, 0 => rw [dtwPhoneD, dtwPhoneD]
    | i + 1, j + 1 =>
      rw [dtwPhoneD]
      conv_rhs => rw [dtwPhoneD]
      by_cases hc : i + 1 ≤ ga.length ∧ phoneInBand band gb.length (i + 1) (j + 1)
      · rw [if_pos hc, if_pos (phoneInBand_symm.mp hc)]
        rw [IHN i (j + 1) (by omega), IHN (i + 1) j (by omega), IHN i j (by omega),
          phoneCost_comm]
        exact min_left_comm _ _ _
      · rw [if_neg hc, if_neg (fun h => hc (phoneInBand_symm.mpr h))]

/-- `_dtw_phone` is symmetric in its two GOP sequences. -/
theorem dtwPhone_symm (ga gb : List (ℕ × ℝ × ℕ)) (tau lam : ℝ) (band : Option ℕ) :
    dtwPhone ga gb tau lam band = dtwPhone gb ga tau lam band := by
  rw [dtwPhone, dtwPhone]
  by_cases h : ga = [] ∨ gb = []
  · rw [if_pos h, if_pos (Or.symm h)]
  · rw [if_neg h, if_neg (fun h2 => h (Or.symm h2))]
    rw [dtwPhoneD_symm ga gb lam band (ga.length + gb.length) ga.length gb.length le_rfl]
    congr 1
    funext d
    rw [add_comm ((ga.length : ℝ)) ((gb.length : ℝ))]

theorem jsdDivergence_comm (p q : List ℝ) : jsdDivergence p q = jsdDivergence q p := by
  simp only [jsdDivergence]
  rw [List.zipWith_comm_of_comm (fun a b => (a + b) / 2) (fun a b => by ring) p q]
  congr 1
  exact add_comm _ _

/-- The JSD frame-distance matrix is symmetric at in-range indices. -/
theorem ppgD_symm (Pa Pb : List (List ℝ)) (band : Option ℕ) (i j : ℕ)
    (hi : i < Pa.length) (hj : j < Pb.length) :
    ppgD Pa Pb band i j = ppgD Pb Pa band j i := by
  cases band with
  | none => exact jsdDivergence_comm _ _
  | some b =>
    simp only [ppgD]
    have hiff : (i ≤ j + b ∧ j < i + b + 1 ∧ j < Pb.length) ↔
        (j ≤ i + b ∧ i < j + b + 1 ∧ i < Pa.length) := by omega
    by_cases hc : i ≤ j + b ∧ j < i + b + 1 ∧ j < Pb.length
    · rw [if_pos hc, if_pos (hiff.mp hc)]
      exact jsdDivergence_comm _ _
    · rw [if_neg hc, if_neg (fun h => hc (hiff.mpr h))]

/-- The `_dtw_distance` accumulation transposes along with its cost matrix
(the costs need only agree at in-range indices). -/
theorem accMat_symm (c c' : ℕ → ℕ → ℝ) (n m : ℕ)
    (hcc : ∀ i j, i < n → j < m → c i j = c' j i) :
    ∀ N i j, i + j ≤ N → i ≤ n → j ≤ m → accMat c i j = accMat c' j i := by
  intro N
  induction N with
  | zero =>
    intro i j h _ _
    have hi : i = 0 := by omega
    have hj : j = 0 := by omega
    subst hi; subst hj
    rw [accMat_zero, accMat_zero]
  | succ N IHN =>
    intro i j _ hin hjm
    match i, j with
    | 0, 0 => rw [accMat_zero, accMat_zero]
    | 0, j + 1 => rw [accMat_row0, accMat_col0]
    | i + 1, 0 => rw [accMat_col0, accMat_row0]
    | i + 1, j + 1 =>
      rw [accMat]
      conv_rhs => rw [accMat]
      rw [hcc i j (by omega) (by omega),
        IHN i (j + 1) (by omega) (by omega) (by omega),
        IHN (i + 1) j (by omega) (by omega) (by omega),
        IHN i j (by omega) (by omega) (by omega)]
      congr 1
      exact min_left_comm _ _ _

theorem suggestedBand_comm (na nb : ℕ) : suggestedBand na nb = suggestedBand nb na := by
  rw [suggestedBand, suggestedBand, Nat.max_comm, Nat.min_comm]

theorem autoBand_comm (na nb : ℕ) (band : Option ℕ) :
    autoBand na nb band = autoBand nb na band := by
  cases band with
  | none => rfl
  | some b =>
    simp only [autoBand]
    have hs := suggestedBand_comm na nb
    have hiff : (0 < min na nb ∧ 6 * min na nb < 5 * max na nb ∧ b < suggestedBand na nb) ↔
        (0 < min nb na ∧ 6 * min nb na < 5 * max nb na ∧ b < suggestedBand nb na) := by
      rw [Nat.min_comm nb na, Nat.max_comm nb na, ← hs]
    by_cases hcond : 0 < min na nb ∧ 6 * min na nb < 5 * max na nb ∧ b < suggestedBand na nb
    · rw [if_pos hcond, if_pos (hiff.mp hcond), hs]
    · rw [if_neg hcond, if_neg (fun h => hcond (hiff.mpr h))]

/-- `_ppg_jsd_similarity` (jsd metric) is symmetric in its posteriorgrams. -/
theorem ppgJsdSimilarity_symm (Pa0 Pb0 : List (List ℝ)) (blank : ℕ)
    (band : Option ℕ) (d : ℕ) :
    ppgJsdSimilarity Pa0 Pb0 blank band d = ppgJsdSimilarity Pb0 Pa0 blank band d := by
  simp only [ppgJsdSimilarity]
  set Pa := downsampleList d (Pa0.map (removeBlankRenorm blank)) with hPa
  set Pb := downsampleList d (Pb0.map (removeBlankRenorm blank)) with hPb
  rw [autoBand_comm Pb.length Pa.length band]
  rw [accMat_symm (ppgD Pa Pb (autoBand Pa.length Pb.length band))
      (ppgD Pb Pa (autoBand Pa.length Pb.length band)) Pa.length Pb.length
      (fun i j hi hj => ppgD_symm Pa Pb _ i j hi hj)
      (Pa.length + Pb.length) Pa.length Pb.length le_rfl le_rfl le_rfl]
  congr 1
  funext a
  rw [add_comm ((Pa.length : ℝ)) ((Pb.length : ℝ))]

/-! ## Concrete evaluation support for DTW matrices over `WithTop ℝ` -/

theorem wt_zero : (0 : WithTop ℝ) = ((0 : ℝ) : WithTop ℝ) := rfl

theorem wt_min_top_left (a : WithTop ℝ) : min ⊤ a = a := min_eq_right le_top

theorem wt_min_top_right (a : WithTop ℝ) : min a ⊤ = a := min_eq_left le_top

theorem wt_coe_min (a b : ℝ) :
    min ((a : ℝ) : WithTop ℝ) ((b : ℝ) : WithTop ℝ) = ((min a b : ℝ) : WithTop ℝ) :=
  (WithTop.coe_min a b).symm

theorem wt_coe_add (a b : ℝ) :
    ((a : ℝ) : WithTop ℝ) + ((b : ℝ) : WithTop ℝ) = ((a + b : ℝ) : WithTop ℝ) :=
  (WithTop.coe_add a b).symm

theorem wt_coe_le_coe {a b : ℝ} (h : a ≤ b) :
    ((a : ℝ) : WithTop ℝ) ≤ ((b : ℝ) : WithTop ℝ) := WithTop.coe_le_coe.mpr h

theorem wt_not_coe_le_coe {a b : ℝ} (h : b < a) :
    ¬ ((a : ℝ) : WithTop ℝ) ≤ ((b : ℝ) : WithTop ℝ) :=
  fun h2 => absurd (WithTop.coe_le_coe.mp h2) (not_le.mpr h)

theorem wt_not_top_le_coe (b : ℝ) : ¬ (⊤ : WithTop ℝ) ≤ ((b : ℝ) : WithTop ℝ) :=
  fun h2 => WithTop.coe_ne_top (top_le_iff.mp h2)

theorem dtwBand_comm (n m : ℕ) : dtwBand n m = dtwBand m n := by
  rw [dtwBand, dtwBand, Nat.max_comm n m, Nat.min_comm n m]

/-- The banded `dtw_alignment` matrix transposes along with its cost matrix. -/
theorem dtwMat_symm (c c' : ℕ → ℕ → ℝ) (n m : ℕ)
    (hcc : ∀ i j, i < n → j < m → c i j = c' j i) :
    ∀ N i j, i + j ≤ N → dtwMat c n m i j = dtwMat c' m n j i := by
  intro N
  induction N with
  | zero =>
    intro i j h
    have hi : i = 0 := by omega
    have hj : j = 0 := by omega
    subst hi; subst hj
    rw [dtwMat_zero, dtwMat_zero]
  | succ N IHN =>
    intro i j _
    match i, j with
    | 0, 0 => rw [dtwMat_zero, dtwMat_zero]
    | 0, j + 1 => rw [dtwMat_row0, dtwMat_col0]
    | i + 1, 0 => rw [dtwMat_col0, dtwMat_row0]
    | i + 1, j + 1 =>
      have hiff : (i + 1 ≤ n ∧ max 1 (i + 1 - dtwBand n m) ≤ j + 1 ∧
          j + 1 ≤ min m (i + 1 + dtwBand n m)) ↔
          (j + 1 ≤ m ∧ max 1 (j + 1 - dtwBand m n) ≤ i + 1 ∧
          i + 1 ≤ min n (j + 1 + dtwBand m n)) := by
        rw [dtwBand_comm m n]
        omega
      rw [dtwMat]
      conv_rhs => rw [dtwMat]
      by_cases hc : i + 1 ≤ n ∧ max 1 (i + 1 - dtwBand n m) ≤ j + 1 ∧
          j + 1 ≤ min m (i + 1 + dtwBand n m)
      · rw [if_pos hc, if_pos (hiff.mp hc)]
        rw [hcc i j (by omega) (by omega),
          IHN i (j + 1) (by omega), IHN (i + 1) j (by omega), IHN i j (by omega)]
        congr 1
        exact min_left_comm _ _ _
      · rw [if_neg hc, if_neg (fun h => hc (hiff.mpr h))]

theorem getD_replicate {β : Type} (c : β) : ∀ n k, (List.replicate n c).getD k c = c
  | 0, _ => rfl
  | _ + 1, 0 => rfl
  | n + 1, k + 1 => getD_replicate c n k

theorem safeNorm_zero_getD (n k : ℕ) :
    (safeNorm (List.replicate n (0 : ℝ))).getD k 0 = 0 := by
  rw [safeNorm, List.map_replicate, zero_div]
  exact getD_replicate 0 n k

/-- When `f0` normalises to zero and nothing is voiced, the stacked-row cost
reduces to the distance of the normalised intensities. -/
theorem prosodyCost_of_intensity (f1 f2 : ProsodyFeat)
    (h10 : ∀ k, (safeNorm f1.f0).getD k 0 = 0) (h20 : ∀ k, (safeNorm f2.f0).getD k 0 = 0)
    (h1v : ∀ k, f1.voiced.getD k false = false)
    (h2v : ∀ k, f2.voiced.getD k false = false) :
    ∀ i j, prosodyCost f1 f2 i j =
      |(safeNorm f1.intensity).getD i 0 - (safeNorm f2.intensity).getD j 0| := by
  intro i j
  rw [prosodyCost, combinedRow, combinedRow, euclid3]
  dsimp only
  rw [h10 i, h20 j, h1v i, h2v j]
  simp only [if_false, Bool.false_eq_true]
  rw [show ((0 : ℝ) - 0) ^ 2 +
      ((safeNorm f1.intensity).getD i 0 - (safeNorm f2.intensity).getD j 0) ^ 2 +
      ((0 : ℝ) - 0) ^ 2 =
      ((safeNorm f1.intensity).getD i 0 - (safeNorm f2.intensity).getD j 0) ^ 2 by ring]
  exact Real.sqrt_sq_eq_abs _

/-- C8 (amended): the two genuinely symmetric DTW similarities.  The PPG
JSD+DTW similarity and the GOP phone-level DTW similarity are invariant under
swapping their two inputs, because their cost formulations are symmetric and
their accumulations transpose.  (The prosodic metrics built on
`dtw_alignment`'s backtracking are not: see the counterexample.) -/
theorem claim_C8_dtw_similarity_symmetry :
    (∀ (ga gb : List (ℕ × ℝ × ℕ)) (tau lam : ℝ) (band : Option ℕ),
      dtwPhone ga gb tau lam band = dtwPhone gb ga tau lam band) ∧
    (∀ (Pa0 Pb0 : List (List ℝ)) (blank : ℕ) (band : Option ℕ) (d : ℕ),
      ppgJsdSimilarity Pa0 Pb0 blank band d = ppgJsdSimilarity Pb0 Pa0 blank band d) :=
  ⟨dtwPhone_symm, ppgJsdSimilarity_symm⟩

/-- C8 counterexample: the Energy similarity is *not* symmetric.  For the
5-frame intensity track `[1, 0, 1/2, 1, 1]` against the 4-frame track
`[0, 1, 1/2, 1]` (with zero `f0` and nothing voiced), the accumulated-cost
matrix is symmetric, but `np.argmin`'s first-minimum tie-breaking makes the
backtracked paths differ under transposition, the aligned intensity pairs
differ, and the two Pearson correlations differ. -/
theorem claim_C8_energy_asymmetry_counterexample :
    calculate_energy_similarity
        ⟨List.replicate 5 0, [1, 0, 1/2, 1, 1], List.replicate 5 false⟩
        ⟨List.replicate 4 0, [0, 1, 1/2, 1], List.replicate 4 false⟩ ≠
      calculate_energy_similarity
        ⟨List.replicate 4 0, [0, 1, 1/2, 1], List.replicate 4 false⟩
        ⟨List.replicate 5 0, [1, 0, 1/2, 1, 1], List.replicate 5 false⟩ := by
  set f1 : ProsodyFeat :=
    ⟨List.replicate 5 0, [1, 0, 1/2, 1, 1], List.replicate 5 false⟩ with hf1
  set f2 : ProsodyFeat :=
    ⟨List.replicate 4 0, [0, 1, 1/2, 1], List.replicate 4 false⟩ with hf2
  have hsx : safeNorm [1, 0, 1/2, 1, 1] = ([1, 0, 1/2, 1, 1] : List ℝ) := by
    rw [safeNorm]
    rw [show maxAbs [1, 0, 1/2, 1, 1] = 1 from by rw [maxAbs]; norm_num [abs_of_nonneg, max_def]]
    norm_num [max_def]
  have hsy : safeNorm [0, 1, 1/2, 1] = ([0, 1, 1/2, 1] : List ℝ) := by
    rw [safeNorm]
    rw [show maxAbs [0, 1, 1/2, 1] = 1 from by rw [maxAbs]; norm_num [abs_of_nonneg, max_def]]
    norm_num [max_def]
  have hc12 : ∀ i j, prosodyCost f1 f2 i j =
      |([1, 0, 1/2, 1, 1] : List ℝ).getD i 0 - ([0, 1, 1/2, 1] : List ℝ).getD j 0| := by
    intro i j
    rw [prosodyCost_of_intensity f1 f2 (fun k => safeNorm_zero_getD 5 k)
      (fun k => safeNorm_zero_getD 4 k) (fun k => getD_replicate false 5 k)
      (fun k => getD_replicate false 4 k) i j]
    rw [show safeNorm f1.intensity = ([1, 0, 1/2, 1, 1] : List ℝ) from hsx,
        show safeNorm f2.intensity = ([0, 1, 1/2, 1] : List ℝ) from hsy]
  have hc21 : ∀ i j, prosodyCost f2 f1 i j =
      |([0, 1, 1/2, 1] : List ℝ).getD i 0 - ([1, 0, 1/2, 1, 1] : List ℝ).getD j 0| := by
    intro i j
    rw [prosodyCost_of_intensity f2 f1 (fun k => safeNorm_zero_getD 4 k)
      (fun k => safeNorm_zero_getD 5 k) (fun k => getD_replicate false 4 k)
      (fun k => getD_replicate false 5 k) i j]
    rw [show safeNorm f2.intensity = ([0, 1, 1/2, 1] : List ℝ) from hsy,
        show safeNorm f1.intensity = ([1, 0, 1/2, 1, 1] : List ℝ) from hsx]
  have c00 : prosodyCost f1 f2 0 0 = 1 := by
    rw [hc12]; show |(1 : ℝ) - 0| = 1; norm_num [abs_of_nonneg, abs_of_nonpos]
  have c01 : prosodyCost f1 f2 0 1 = 0 := by
    rw [hc12]; show |(1 : ℝ) - 1| = 0; norm_num
  have c10 : prosodyCost f1 f2 1 0 = 0 := by
    rw [hc12]; show |(0 : ℝ) - 0| = 0; norm_num
  have c11 : prosodyCost f1 f2 1 1 = 1 := by
    rw [hc12]; show |(0 : ℝ) - 1| = 1; norm_num [abs_of_nonneg, abs_of_nonpos]
  have c12 : prosodyCost f1 f2 1 2 = 1 / 2 := by
    rw [hc12]; show |(0 : ℝ) - 1 / 2| = 1 / 2; norm_num [abs_of_nonneg, abs_of_nonpos]
  have c21 : prosodyCost f1 f2 2 1 = 1 / 2 := by
    rw [hc12]; show |(1 : ℝ) / 2 - 1| = 1 / 2; norm_num [abs_of_nonneg, abs_of_nonpos]
  have c22 : prosodyCost f1 f2 2 2 = 0 := by
    rw [hc12]; show |(1 : ℝ) / 2 - 1 / 2| = 0; norm_num
  have c23 : prosodyCost f1 f2 2 3 = 1 / 2 := by
    rw [hc12]; show |(1 : ℝ) / 2 - 1| = 1 / 2; norm_num [abs_of_nonneg, abs_of_nonpos]
  have c32 : prosodyCost f1 f2 3 2 = 1 / 2 := by
    rw [hc12]; show |(1 : ℝ) - 1 / 2| = 1 / 2; norm_num [abs_of_nonneg, abs_of_nonpos]
  have c33 : prosodyCost f1 f2 3 3 = 0 := by
    rw [hc12]; show |(1 : ℝ) - 1| = 0; norm_num
  have hA00 : dtwMat (prosodyCost f1 f2) 5 4 0 0 = 0 := dtwMat_zero _ 5 4
  have hA01 : dtwMat (prosodyCost f1 f2) 5 4 0 1 = ⊤ := dtwMat_row0 _ 5 4 0
  have hA02 : dtwMat (prosodyCost f1 f2) 5 4 0 2 = ⊤ := dtwMat_row0 _ 5 4 1
  have hA10 : dtwMat (prosodyCost f1 f2) 5 4 1 0 = ⊤ := dtwMat_col0 _ 5 4 0
  have hA20 : dtwMat (prosodyCost f1 f2) 5 4 2 0 = ⊤ := dtwMat_col0 _ 5 4 1
  have hA11 : dtwMat (prosodyCost f1 f2) 5 4 1 1 = ((1 : ℝ) : WithTop ℝ) := by
    show dtwMat (prosodyCost f1 f2) 5 4 (0 + 1) (0 + 1) = _
    rw [dtwMat, if_pos (by decide),
      show dtwMat (prosodyCost f1 f2) 5 4 0 (0 + 1) = ⊤ from hA01,
      show dtwMat (prosodyCost f1 f2) 5 4 (0 + 1) 0 = ⊤ from hA10, hA00, c00]
    simp only [wt_zero, wt_min_top_left, wt_min_top_right, wt_coe_min, wt_coe_add]
    norm_num
  have hA12 : dtwMat (prosodyCost f1 f2) 5 4 1 2 = ((1 : ℝ) : WithTop ℝ) := by
    show dtwMat (prosodyCost f1 f2) 5 4 (0 + 1) (1 + 1) = _
    rw [dtwMat, if_pos (by decide),
      show dtwMat (prosodyCost f1 f2) 5 4 0 (1 + 1) = ⊤ from hA02,
      show dtwMat (prosodyCost f1 f2) 5 4 (0 + 1) 1 = ((1 : ℝ) : WithTop ℝ) from hA11,
      show dtwMat (prosodyCost f1 f2) 5 4 0 1 = ⊤ from hA01, c01]
    simp only [wt_zero, wt_min_top_left, wt_min_top_right, wt_coe_min, wt_coe_add]
    norm_num
  have hA21 : dtwMat (prosodyCost f1 f2) 5 4 2 1 = ((1 : ℝ) : WithTop ℝ) := by
    show dtwMat (prosodyCost f1 f2) 5 4 (1 + 1) (0 + 1) = _
    rw [dtwMat, if_pos (by decide),
      show dtwMat (prosodyCost f1 f2) 5 4 1 (0 + 1) = ((1 : ℝ) : WithTop ℝ) from hA11,
      show dtwMat (prosodyCost f1 f2) 5 4 (1 + 1) 0 = ⊤ from hA20,
      show dtwMat (prosodyCost f1 f2) 5 4 1 0 = ⊤ from hA10, c10]
    simp only [wt_zero, wt_min_top_left, wt_min_top_right, wt_coe_min, wt_coe_add]
    norm_num
  have hA13 : dtwMat (prosodyCost f1 f2) 5 4 1 3 = ⊤ := by
    show dtwMat (prosodyCost f1 f2) 5 4 (0 + 1) (2 + 1) = ⊤
    rw [dtwMat, if_neg (by decide)]
  have hA22 : dtwMat (prosodyCost f1 f2) 5 4 2 2 = ((2 : ℝ) : WithTop ℝ) := by
    show dtwMat (prosodyCost f1 f2) 5 4 (1 + 1) (1 + 1) = _
    rw [dtwMat, if_pos (by decide),
      show dtwMat (prosodyCost f1 f2) 5 4 1 (1 + 1) = ((1 : ℝ) : WithTop ℝ) from hA12,
      show dtwMat (prosodyCost f1 f2) 5 4 (1 + 1) 1 = ((1 : ℝ) : WithTop ℝ) from hA21,
      show dtwMat (prosodyCost f1 f2) 5 4 1 1 = ((1 : ℝ) : WithTop ℝ) from hA11, c11]
    simp only [wt_zero, wt_min_top_left, wt_min_top_right, wt_coe_min, wt_coe_add]
    norm_num [min_def]
  have hA23 : dtwMat (prosodyCost f1 f2) 5 4 2 3 = ((3 / 2 : ℝ) : WithTop ℝ) := by
    show dtwMat (prosodyCost f1 f2) 5 4 (1 + 1) (2 + 1) = _
    rw [dtwMat, if_pos (by decide),
      show dtwMat (prosodyCost f1 f2) 5 4 1 (2 + 1) = ⊤ from hA13,
      show dtwMat (prosodyCost f1 f2) 5 4 (1 + 1) 2 = ((2 : ℝ) : WithTop ℝ) from hA22,
      show dtwMat (prosodyCost f1 f2) 5 4 1 2 = ((1 : ℝ) : WithTop ℝ) from hA12, c12]
    simp only [wt_zero, wt_min_top_left, wt_min_top_right, wt_coe_min, wt_coe_add]
    norm_num [min_def]
  have hA31 : dtwMat (prosodyCost f1 f2) 5 4 3 1 = ⊤ := by
    show dtwMat (prosodyCost f1 f2) 5 4 (2 + 1) (0 + 1) = ⊤
    rw [dtwMat, if_neg (by decide)]
  have hA32 : dtwMat (prosodyCost f1 f2) 5 4 3 2 = ((3 / 2 : ℝ) : WithTop ℝ) := by
    show dtwMat (prosodyCost f1 f2) 5 4 (2 + 1) (1 + 1) = _
    rw [dtwMat, if_pos (by decide),
      show dtwMat (prosodyCost f1 f2) 5 4 2 (1 + 1) = ((2 : ℝ) : WithTop ℝ) from hA22,
      show dtwMat (prosodyCost f1 f2) 5 4 (2 + 1) 1 = ⊤ from hA31,
      show dtwMat (prosodyCost f1 f2) 5 4 2 1 = ((1 : ℝ) : WithTop ℝ) from hA21, c21]
    simp only [wt_zero, wt_min_top_left, wt_min_top_right, wt_coe_min, wt_coe_add]
    norm_num [min_def]
  have hA33 : dtwMat (prosodyCost f1 f2) 5 4 3 3 = ((3 / 2 : ℝ) : WithTop ℝ) := by
    show dtwMat (prosodyCost f1 f2) 5 4 (2 + 1) (2 + 1) = _
    rw [dtwMat, if_pos (by decide),
      show dtwMat (prosodyCost f1 f2) 5 4 2 (2 + 1) = ((3 / 2 : ℝ) : WithTop ℝ) from hA23,
      show dtwMat (prosodyCost f1 f2) 5 4 (2 + 1) 2 = ((3 / 2 : ℝ) : WithTop ℝ) from hA32,
      show dtwMat (prosodyCost f1 f2) 5 4 2 2 = ((2 : ℝ) : WithTop ℝ) from hA22, c22]
    simp only [wt_zero, wt_min_top_left, wt_min_top_right, wt_coe_min, wt_coe_add]
    norm_num [min_def]
  have hA24 : dtwMat (prosodyCost f1 f2) 5 4 2 4 = ⊤ := by
    show dtwMat (prosodyCost f1 f2) 5 4 (1 + 1) (3 + 1) = ⊤
    rw [dtwMat, if_neg (by decide)]
  have hA34 : dtwMat (prosodyCost f1 f2) 5 4 3 4 = ((2 : ℝ) : WithTop ℝ) := by
    show dtwMat (prosodyCost f1 f2) 5 4 (2 + 1) (3 + 1) = _
    rw [dtwMat, if_pos (by decide),
      show dtwMat (prosodyCost f1 f2) 5 4 2 (3 + 1) = ⊤ from hA24,
      show dtwMat (prosodyCost f1 f2) 5 4 (2 + 1) 3 = ((3 / 2 : ℝ) : WithTop ℝ) from hA33,
      show dtwMat (prosodyCost f1 f2) 5 4 2 3 = ((3 / 2 : ℝ) : WithTop ℝ) from hA23, c23]
    simp only [wt_zero, wt_min_top_left, wt_min_top_right, wt_coe_min, wt_coe_add]
    norm_num [min_def]
  have hA42 : dtwMat (prosodyCost f1 f2) 5 4 4 2 = ⊤ := by
    show dtwMat (prosodyCost f1 f2) 5 4 (3 + 1) (1 + 1) = ⊤
    rw [dtwMat, if_neg (by decide)]
  have hA43 : dtwMat (prosodyCost f1 f2) 5 4 4 3 = ((2 : ℝ) : WithTop ℝ) := by
    show dtwMat (prosodyCost f1 f2) 5 4 (3 + 1) (2 + 1) = _
    rw [dtwMat, if_pos (by decide),
      show dtwMat (prosodyCost f1 f2) 5 4 3 (2 + 1) = ((3 / 2 : ℝ) : WithTop ℝ) from hA33,
      show dtwMat (prosodyCost f1 f2) 5 4 (3 + 1) 2 = ⊤ from hA42,
      show dtwMat (prosodyCost f1 f2) 5 4 3 2 = ((3 / 2 : ℝ) : WithTop ℝ) from hA32, c32]
    simp only [wt_zero, wt_min_top_left, wt_min_top_right, wt_coe_min, wt_coe_add]
    norm_num [min_def]
  have hA44 : dtwMat (prosodyCost f1 f2) 5 4 4 4 = ((3 / 2 : ℝ) : WithTop ℝ) := by
    show dtwMat (prosodyCost f1 f2) 5 4 (3 + 1) (3 + 1) = _
    rw [dtwMat, if_pos (by decide),
      show dtwMat (prosodyCost f1 f2) 5 4 3 (3 + 1) = ((2 : ℝ) : WithTop ℝ) from hA34,
      show dtwMat (prosodyCost f1 f2) 5 4 (3 + 1) 3 = ((2 : ℝ) : WithTop ℝ) from hA43,
      show dtwMat (prosodyCost f1 f2) 5 4 3 3 = ((3 / 2 : ℝ) : WithTop ℝ) from hA33, c33]
    simp only [wt_zero, wt_min_top_left, wt_min_top_right, wt_coe_min, wt_coe_add]
    norm_num [min_def]
  have hA53 : dtwMat (prosodyCost f1 f2) 5 4 5 3 = ⊤ := by
    show dtwMat (prosodyCost f1 f2) 5 4 (4 + 1) (2 + 1) = ⊤
    rw [dtwMat, if_neg (by decide)]
  have hsym : ∀ i j, dtwMat (prosodyCost f2 f1) 4 5 i j = dtwMat (prosodyCost f1 f2) 5 4 j i :=
    fun i j => dtwMat_symm (prosodyCost f2 f1) (prosodyCost f1 f2) 4 5
      (fun a b _ _ => by rw [hc21 a b, hc12 b a, abs_sub_comm]) (i + j) i j le_rfl
  have hB00 : dtwMat (prosodyCost f2 f1) 4 5 0 0 = 0 := by rw [hsym 0 0]; exact hA00
  have hB01 : dtwMat (prosodyCost f2 f1) 4 5 0 1 = ⊤ := by rw [hsym 0 1]; exact hA10
  have hB02 : dtwMat (prosodyCost f2 f1) 4 5 0 2 = ⊤ := by rw [hsym 0 2]; exact hA20
  have hB10 : dtwMat (prosodyCost f2 f1) 4 5 1 0 = ⊤ := by rw [hsym 1 0]; exact hA01
  have hB11 : dtwMat (prosodyCost f2 f1) 4 5 1 1 = ((1 : ℝ) : WithTop ℝ) := by
    rw [hsym 1 1]; exact hA11
  have hB12 : dtwMat (prosodyCost f2 f1) 4 5 1 2 = ((1 : ℝ) : WithTop ℝ) := by
    rw [hsym 1 2]; exact hA21
  have hB13 : dtwMat (prosodyCost f2 f1) 4 5 1 3 = ⊤ := by rw [hsym 1 3]; exact hA31
  have hB22 : dtwMat (prosodyCost f2 f1) 4 5 2 2 = ((2 : ℝ) : WithTop ℝ) := by
    rw [hsym 2 2]; exact hA22
  have hB23 : dtwMat (prosodyCost f2 f1) 4 5 2 3 = ((3 / 2 : ℝ) : WithTop ℝ) := by
    rw [hsym 2 3]; exact hA32
  have hB32 : dtwMat (prosodyCost f2 f1) 4 5 3 2 = ((3 / 2 : ℝ) : WithTop ℝ) := by
    rw [hsym 3 2]; exact hA23
  have hB33 : dtwMat (prosodyCost f2 f1) 4 5 3 3 = ((3 / 2 : ℝ) : WithTop ℝ) := by
    rw [hsym 3 3]; exact hA33
  have hB34 : dtwMat (prosodyCost f2 f1) 4 5 3 4 = ((2 : ℝ) : WithTop ℝ) := by
    rw [hsym 3 4]; exact hA43
  have hB35 : dtwMat (prosodyCost f2 f1) 4 5 3 5 = ⊤ := by rw [hsym 3 5]; exact hA53
  have hB43 : dtwMat (prosodyCost f2 f1) 4 5 4 3 = ((2 : ℝ) : WithTop ℝ) := by
    rw [hsym 4 3]; exact hA34
  have hB44 : dtwMat (prosodyCost f2 f1) 4 5 4 4 = ((3 / 2 : ℝ) : WithTop ℝ) := by
    rw [hsym 4 4]; exact hA44
  have s1 : dtwRevPath (dtwMat (prosodyCost f1 f2) 5 4) 5 4 =
      (4, 3) :: dtwRevPath (dtwMat (prosodyCost f1 f2) 5 4) 4 4 := by
    show dtwRevPath (dtwMat (prosodyCost f1 f2) 5 4) (4 + 1) (3 + 1) = _
    rw [dtwRevPath,
      show dtwMat (prosodyCost f1 f2) 5 4 4 (3 + 1) = ((3 / 2 : ℝ) : WithTop ℝ) from hA44,
      show dtwMat (prosodyCost f1 f2) 5 4 (4 + 1) 3 = ⊤ from hA53, hA43]
    rw [if_neg (fun h => wt_not_coe_le_coe (by norm_num) h.1), if_pos le_top]
  have s2 : dtwRevPath (dtwMat (prosodyCost f1 f2) 5 4) 4 4 =
      (3, 3) :: dtwRevPath (dtwMat (prosodyCost f1 f2) 5 4) 3 3 := by
    show dtwRevPath (dtwMat (prosodyCost f1 f2) 5 4) (3 + 1) (3 + 1) = _
    rw [dtwRevPath,
      show dtwMat (prosodyCost f1 f2) 5 4 3 (3 + 1) = ((2 : ℝ) : WithTop ℝ) from hA34,
      show dtwMat (prosodyCost f1 f2) 5 4 (3 + 1) 3 = ((2 : ℝ) : WithTop ℝ) from hA43, hA33]
    rw [if_pos ⟨wt_coe_le_coe (by norm_num), wt_coe_le_coe (by norm_num)⟩]
  have s3 : dtwRevPath (dtwMat (prosodyCost f1 f2) 5 4) 3 3 =
      (2, 2) :: dtwRevPath (dtwMat (prosodyCost f1 f2) 5 4) 2 3 := by
    show dtwRevPath (dtwMat (prosodyCost f1 f2) 5 4) (2 + 1) (2 + 1) = _
    rw [dtwRevPath,
      show dtwMat (prosodyCost f1 f2) 5 4 2 (2 + 1) = ((3 / 2 : ℝ) : WithTop ℝ) from hA23,
      show dtwMat (prosodyCost f1 f2) 5 4 (2 + 1) 2 = ((3 / 2 : ℝ) : WithTop ℝ) from hA32, hA22]
    rw [if_neg (fun h => wt_not_coe_le_coe (by norm_num) h.1),
      if_pos (wt_coe_le_coe (by norm_num))]
  have s4 : dtwRevPath (dtwMat (prosodyCost f1 f2) 5 4) 2 3 =
      (1, 2) :: dtwRevPath (dtwMat (prosodyCost f1 f2) 5 4) 1 2 := by
    show dtwRevPath (dtwMat (prosodyCost f1 f2) 5 4) (1 + 1) (2 + 1) = _
    rw [dtwRevPath,
      show dtwMat (prosodyCost f1 f2) 5 4 1 (2 + 1) = ⊤ from hA13,
      show dtwMat (prosodyCost f1 f2) 5 4 (1 + 1) 2 = ((2 : ℝ) : WithTop ℝ) from hA22, hA12]
    rw [if_pos ⟨le_top, wt_coe_le_coe (by norm_num)⟩]
  have s5 : dtwRevPath (dtwMat (prosodyCost f1 f2) 5 4) 1 2 =
      (0, 1) :: dtwRevPath (dtwMat (prosodyCost f1 f2) 5 4) 1 1 := by
    show dtwRevPath (dtwMat (prosodyCost f1 f2) 5 4) (0 + 1) (1 + 1) = _
    rw [dtwRevPath,
      show dtwMat (prosodyCost f1 f2) 5 4 0 (1 + 1) = ⊤ from hA02,
      show dtwMat (prosodyCost f1 f2) 5 4 (0 + 1) 1 = ((1 : ℝ) : WithTop ℝ) from hA11, hA01]
    rw [if_neg (fun h => wt_not_top_le_coe 1 h.2), if_neg (wt_not_top_le_coe 1)]
  have s6 : dtwRevPath (dtwMat (prosodyCost f1 f2) 5 4) 1 1 =
      (0, 0) :: dtwRevPath (dtwMat (prosodyCost f1 f2) 5 4) 0 0 := by
    show dtwRevPath (dtwMat (prosodyCost f1 f2) 5 4) (0 + 1) (0 + 1) = _
    conv_lhs => rw [dtwRevPath]
    rw [show dtwMat (prosodyCost f1 f2) 5 4 0 (0 + 1) = ⊤ from hA01,
      show dtwMat (prosodyCost f1 f2) 5 4 (0 + 1) 0 = ⊤ from hA10, hA00]
    rw [if_pos ⟨le_top, le_top⟩]
  have s0 : dtwRevPath (dtwMat (prosodyCost f1 f2) 5 4) 0 0 = [] := by rw [dtwRevPath]
  have hpath1 : alignPath f1 f2 = [(0, 0), (0, 1), (1, 2), (2, 2), (3, 3), (4, 3)] := by
    rw [alignPath,
      show f1.f0.length = 5 from by rw [hf1]; simp,
      show f2.f0.length = 4 from by rw [hf2]; simp,
      dtwAlignmentPath, s1, s2, s3, s4, s5, s6, s0]
    rfl
  have t1 : dtwRevPath (dtwMat (prosodyCost f2 f1) 4 5) 4 5 =
      (3, 4) :: dtwRevPath (dtwMat (prosodyCost f2 f1) 4 5) 4 4 := by
    show dtwRevPath (dtwMat (prosodyCost f2 f1) 4 5) (3 + 1) (4 + 1) = _
    rw [dtwRevPath,
      show dtwMat (prosodyCost f2 f1) 4 5 3 (4 + 1) = ⊤ from hB35,
      show dtwMat (prosodyCost f2 f1) 4 5 (3 + 1) 4 = ((3 / 2 : ℝ) : WithTop ℝ) from hB44, hB34]
    rw [if_neg (fun h => wt_not_coe_le_coe (by norm_num) h.2), if_neg (wt_not_top_le_coe _)]
  have t2 : dtwRevPath (dtwMat (prosodyCost f2 f1) 4 5) 4 4 =
      (3, 3) :: dtwRevPath (dtwMat (prosodyCost f2 f1) 4 5) 3 3 := by
    show dtwRevPath (dtwMat (prosodyCost f2 f1) 4 5) (3 + 1) (3 + 1) = _
    rw [dtwRevPath,
      show dtwMat (prosodyCost f2 f1) 4 5 3 (3 + 1) = ((2 : ℝ) : WithTop ℝ) from hB34,
      show dtwMat (prosodyCost f2 f1) 4 5 (3 + 1) 3 = ((2 : ℝ) : WithTop ℝ) from hB43, hB33]
    rw [if_pos ⟨wt_coe_le_coe (by norm_num), wt_coe_le_coe (by norm_num)⟩]
  have t3 : dtwRevPath (dtwMat (prosodyCost f2 f1) 4 5) 3 3 =
      (2, 2) :: dtwRevPath (dtwMat (prosodyCost f2 f1) 4 5) 2 3 := by
    show dtwRevPath (dtwMat (prosodyCost f2 f1) 4 5) (2 + 1) (2 + 1) = _
    rw [dtwRevPath,
      show dtwMat (prosodyCost f2 f1) 4 5 2 (2 + 1) = ((3 / 2 : ℝ) : WithTop ℝ) from hB23,
      show dtwMat (prosodyCost f2 f1) 4 5 (2 + 1) 2 = ((3 / 2 : ℝ) : WithTop ℝ) from hB32, hB22]
    rw [if_neg (fun h => wt_not_coe_le_coe (by norm_num) h.1),
      if_pos (wt_coe_le_coe (by norm_num))]
  have t4 : dtwRevPath (dtwMat (prosodyCost f2 f1) 4 5) 2 3 =
      (1, 2) :: dtwRevPath (dtwMat (prosodyCost f2 f1) 4 5) 1 2 := by
    show dtwRevPath (dtwMat (prosodyCost f2 f1) 4 5) (1 + 1) (2 + 1) = _
    rw [dtwRevPath,
      show dtwMat (prosodyCost f2 f1) 4 5 1 (2 + 1) = ⊤ from hB13,
      show dtwMat (prosodyCost f2 f1) 4 5 (1 + 1) 2 = ((2 : ℝ) : WithTop ℝ) from hB22, hB12]
    rw [if_pos ⟨le_top, wt_coe_le_coe (by norm_num)⟩]
  have t5 : dtwRevPath (dtwMat (prosodyCost f2 f1) 4 5) 1 2 =
      (0, 1) :: dtwRevPath (dtwMat (prosodyCost f2 f1) 4 5) 1 1 := by
    show dtwRevPath (dtwMat (prosodyCost f2 f1) 4 5) (0 + 1) (1 + 1) = _
    rw [dtwRevPath,
      show dtwMat (prosodyCost f2 f1) 4 5 0 (1 + 1) = ⊤ from hB02,
      show dtwMat (prosodyCost f2 f1) 4 5 (0 + 1) 1 = ((1 : ℝ) : WithTop ℝ) from hB11, hB01]
    rw [if_neg (fun h => wt_not_top_le_coe 1 h.2), if_neg (wt_not_top_le_coe 1)]
  have t6 : dtwRevPath (dtwMat (prosodyCost f2 f1) 4 5) 1 1 =
      (0, 0) :: dtwRevPath (dtwMat (prosodyCost f2 f1) 4 5) 0 0 := by
    show dtwRevPath (dtwMat (prosodyCost f2 f1) 4 5) (0 + 1) (0 + 1) = _
    conv_lhs => rw [dtwRevPath]
    rw [show dtwMat (prosodyCost f2 f1) 4 5 0 (0 + 1) = ⊤ from hB01,
      show dtwMat (prosodyCost f2 f1) 4 5 (0 + 1) 0 = ⊤ from hB10, hB00]
    rw [if_pos ⟨le_top, le_top⟩]
  have t0 : dtwRevPath (dtwMat (prosodyCost f2 f1) 4 5) 0 0 = [] := by rw [dtwRevPath]
  have hpath2 : alignPath f2 f1 = [(0, 0), (0, 1), (1, 2), (2, 2), (3, 3), (3, 4)] := by
    rw [alignPath,
      show f2.f0.length = 4 from by rw [hf2]; simp,
      show f1.f0.length = 5 from by rw [hf1]; simp,
      dtwAlignmentPath, t1, t2, t3, t4, t5, t6, t0]
    rfl
  have hX1 : alignedIntensity1 f1 f2 = [1, 1, 0, 1/2, 1, 1] := by
    rw [alignedIntensity1, hpath1, hf1]
    rfl
  have hY1 : alignedIntensity2 f1 f2 = [0, 1, 1/2, 1/2, 1, 1] := by
    rw [alignedIntensity2, hpath1, hf2]
    rfl
  have hX2 : alignedIntensity1 f2 f1 = [0, 0, 1, 1/2, 1, 1] := by
    rw [alignedIntensity1, hpath2, hf2]
    rfl
  have hY2 : alignedIntensity2 f2 f1 = [1, 0, 1/2, 1/2, 1, 1] := by
    rw [alignedIntensity2, hpath2, hf1]
    rfl
  have hmx1 : listMean [1, 1, 0, 1/2, 1, 1] = 3 / 4 := by rw [listMean]; norm_num
  have hmy1 : listMean [0, 1, 1/2, 1/2, 1, 1] = 2 / 3 := by rw [listMean]; norm_num
  have hmx2 : listMean [0, 0, 1, 1/2, 1, 1] = 7 / 12 := by rw [listMean]; norm_num
  have hmy2 : listMean [1, 0, 1/2, 1/2, 1, 1] = 2 / 3 := by rw [listMean]; norm_num
  have hcx1 : centered [1, 1, 0, 1/2, 1, 1] = [1/4, 1/4, -3/4, -1/4, 1/4, 1/4] := by
    rw [centered, hmx1]; norm_num
  have hcy1 : centered [0, 1, 1/2, 1/2, 1, 1] = [-2/3, 1/3, -1/6, -1/6, 1/3, 1/3] := by
    rw [centered, hmy1]; norm_num
  have hcx2 : centered [0, 0, 1, 1/2, 1, 1] = [-7/12, -7/12, 5/12, -1/12, 5/12, 5/12] := by
    rw [centered, hmx2]; norm_num
  have hcy2 : centered [1, 0, 1/2, 1/2, 1, 1] = [1/3, -2/3, -1/6, -1/6, 1/3, 1/3] := by
    rw [centered, hmy2]; norm_num
  have hsxx1 : sqSum (centered [1, 1, 0, 1/2, 1, 1]) = 7 / 8 := by
    rw [sqSum, hcx1]; norm_num
  have hsyy1 : sqSum (centered [0, 1, 1/2, 1/2, 1, 1]) = 5 / 6 := by
    rw [sqSum, hcy1]; norm_num
  have hsxx2 : sqSum (centered [0, 0, 1, 1/2, 1, 1]) = 29 / 24 := by
    rw [sqSum, hcx2]; norm_num
  have hsyy2 : sqSum (centered [1, 0, 1/2, 1/2, 1, 1]) = 5 / 6 := by
    rw [sqSum, hcy2]; norm_num
  have hp1 : pearsonCorr [1, 1, 0, 1/2, 1, 1] [0, 1, 1/2, 1/2, 1, 1] =
      some ((1 / 4) / (Real.sqrt (7 / 8) * Real.sqrt (5 / 6))) := by
    rw [pearsonCorr, if_neg (by rw [hsxx1, hsyy1]; norm_num)]
    rw [show (List.zipWith (fun a b => a * b) (centered [1, 1, 0, 1/2, 1, 1])
        (centered [0, 1, 1/2, 1/2, 1, 1])).sum = 1 / 4 from by rw [hcx1, hcy1]; norm_num]
    rw [hsxx1, hsyy1]
  have hp2 : pearsonCorr [0, 0, 1, 1/2, 1, 1] [1, 0, 1/2, 1/2, 1, 1] =
      some ((5 / 12) / (Real.sqrt (29 / 24) * Real.sqrt (5 / 6))) := by
    rw [pearsonCorr, if_neg (by rw [hsxx2, hsyy2]; norm_num)]
    rw [show (List.zipWith (fun a b => a * b) (centered [0, 0, 1, 1/2, 1, 1])
        (centered [1, 0, 1/2, 1/2, 1, 1])).sum = 5 / 12 from by rw [hcx2, hcy2]; norm_num]
    rw [hsxx2, hsyy2]
  rw [calculate_energy_similarity, calculate_energy_similarity,
    hX1, hY1, hX2, hY2, hp1, hp2]
  show ((1 / 4) / (Real.sqrt (7 / 8) * Real.sqrt (5 / 6)) + 1) / 2 ≠
    ((5 / 12) / (Real.sqrt (29 / 24) * Real.sqrt (5 / 6)) + 1) / 2
  intro heq
  have hr : (1 / 4) / (Real.sqrt (7 / 8) * Real.sqrt (5 / 6)) =
      (5 / 12) / (Real.sqrt (29 / 24) * Real.sqrt (5 / 6)) := by linarith
  have hsq : ((1 / 4) / (Real.sqrt (7 / 8) * Real.sqrt (5 / 6))) ^ 2 =
      ((5 / 12) / (Real.sqrt (29 / 24) * Real.sqrt (5 / 6))) ^ 2 := by rw [hr]
  have e1 : ((1 / 4 : ℝ) / (Real.sqrt (7 / 8) * Real.sqrt (5 / 6))) ^ 2 = 3 / 35 := by
    rw [div_pow, mul_pow, Real.sq_sqrt (by norm_num : (0 : ℝ) ≤ 7 / 8),
      Real.sq_sqrt (by norm_num : (0 : ℝ) ≤ 5 / 6)]
    norm_num
  have e2 : ((5 / 12 : ℝ) / (Real.sqrt (29 / 24) * Real.sqrt (5 / 6))) ^ 2 = 5 / 29 := by
    rw [div_pow, mul_pow, Real.sq_sqrt (by norm_num : (0 : ℝ) ≤ 29 / 24),
      Real.sq_sqrt (by norm_num : (0 : ℝ) ≤ 5 / 6)]
    norm_num
  rw [e1, e2] at hsq
  norm_num at hsq

/-! ## Hot-path PPG feature (`AudioScorer._calculate_ppg_similarity`)

The Unified Scorer's PPG feature averages the two posteriorgrams over time
(blank column included), takes the torch cosine similarity
`dot / max(‖a‖·‖b‖, 1e-8)` of the two mean distributions, and maps it to
`[0, 1]` by `(cos + 1) / 2`. -/

noncomputable def addRows (a b : List ℝ) : List ℝ := List.zipWith (fun x y => x + y) a b

noncomputable def colSum : List (List ℝ) → List ℝ
  | [] => []
  | r :: rest => rest.foldl addRows r

/-- `P.exp().mean(dim=0)` on a probability posteriorgram. -/
noncomputable def colMean (P : List (List ℝ)) : List ℝ :=
  (colSum P).map (fun v => v / P.length)

noncomputable def dotList (a b : List ℝ) : ℝ :=
  (List.zipWith (fun x y => x * y) a b).sum

noncomputable def norm2 (l : List ℝ) : ℝ := Real.sqrt (sqSum l)

/-- `torch.nn.functional.cosine_similarity` with its `eps = 1e-8` guard. -/
noncomputable def cosineSim (a b : List ℝ) : ℝ :=
  dotList a b / max (norm2 a * norm2 b) (1 / 10 ^ 8)

/-- `AudioScorer._calculate_ppg_similarity`: `(cos + 1) / 2`. -/
noncomputable def hotPpgSimilarity (Pref Ptest : List (List ℝ)) : ℝ :=
  (cosineSim (colMean Pref) (colMean Ptest) + 1) / 2

theorem sum_getD_eq (l : List ℝ) :
    l.sum = ∑ i in Finset.range l.length, l.getD i 0 := by
  induction l with
  | nil => simp
  | cons x t ih =>
    rw [List.sum_cons, List.length_cons, Finset.sum_range_succ']
    simp only [List.getD_cons_succ, List.getD_cons_zero]
    rw [ih]
    exact add_comm _ _

theorem dotList_eq (a : List ℝ) : ∀ b : List ℝ,
    dotList a b = ∑ i in Finset.range (min a.length b.length),
      a.getD i 0 * b.getD i 0 := by
  induction a with
  | nil => intro b; simp [dotList]
  | cons x t ih =>
    intro b
    cases b with
    | nil => simp [dotList]
    | cons y u =>
      rw [dotList]
      simp only [List.zipWith_cons_cons, List.sum_cons, List.length_cons,
        Nat.succ_min_succ, Finset.sum_range_succ', List.getD_cons_succ,
        List.getD_cons_zero]
      rw [show (List.zipWith (fun x y => x * y) t u).sum = dotList t u from rfl, ih u]
      exact add_comm _ _

theorem sqSum_getD (l : List ℝ) :
    sqSum l = ∑ i in Finset.range l.length, l.getD i 0 ^ 2 := by
  rw [sqSum, sum_getD_eq (l.map fun v => v ^ 2), List.length_map]
  refine Finset.sum_congr rfl ?_
  intro i hi
  have hlt : i < l.length := Finset.mem_range.mp hi
  rw [List.getD_eq_getElem _ _ (by simpa using hlt), List.getElem_map,
    List.getD_eq_getElem _ _ hlt]

theorem sqSum_nonneg (l : List ℝ) : 0 ≤ sqSum l := by
  apply List.sum_nonneg
  intro x hx
  obtain ⟨v, _, hv⟩ := List.mem_map.mp hx
  rw [← hv]
  exact sq_nonneg v

theorem sum_range_getD_sq_le (l : List ℝ) (k : ℕ) (hk : k ≤ l.length) :
    ∑ i in Finset.range k, l.getD i 0 ^ 2 ≤ sqSum l := by
  rw [sqSum_getD]
  exact Finset.sum_le_sum_of_subset_of_nonneg (Finset.range_subset.mpr hk)
    (fun i _ _ => sq_nonneg _)

/-- Cauchy-Schwarz for the truncating list dot product. -/
theorem dotList_sq_le (a b : List ℝ) : dotList a b ^ 2 ≤ sqSum a * sqSum b := by
  rw [dotList_eq]
  calc (∑ i in Finset.range (min a.length b.length), a.getD i 0 * b.getD i 0) ^ 2
      ≤ (∑ i in Finset.range (min a.length b.length), a.getD i 0 ^ 2) *
        ∑ i in Finset.range (min a.length b.length), b.getD i 0 ^ 2 :=
        Finset.sum_mul_sq_le_sq_mul_sq _ _ _
    _ ≤ sqSum a * sqSum b :=
        mul_le_mul (sum_range_getD_sq_le a _ (min_le_left _ _))
          (sum_range_getD_sq_le b _ (min_le_right _ _))
          (Finset.sum_nonneg fun i _ => sq_nonneg _) (sqSum_nonneg a)

theorem abs_dotList_le (a b : List ℝ) : |dotList a b| ≤ norm2 a * norm2 b := by
  rw [show |dotList a b| = Real.sqrt (dotList a b ^ 2) from (Real.sqrt_sq_eq_abs _).symm,
    norm2, norm2, ← Real.sqrt_mul (sqSum_nonneg a)]
  exact Real.sqrt_le_sqrt (dotList_sq_le a b)

theorem cosineSim_abs_le (a b : List ℝ) : |cosineSim a b| ≤ 1 := by
  have hden : (0 : ℝ) < max (norm2 a * norm2 b) (1 / 10 ^ 8) :=
    lt_of_lt_of_le (by norm_num) (le_max_right _ _)
  rw [cosineSim, abs_div, abs_of_pos hden, div_le_one hden]
  exact le_trans (abs_dotList_le a b) (le_max_left _ _)

/-- The hot-path PPG feature always lies in `[0, 1]`. -/
theorem hotPpgSimilarity_mem_unit (Pref Ptest : List (List ℝ)) :
    0 ≤ hotPpgSimilarity Pref Ptest ∧ hotPpgSimilarity Pref Ptest ≤ 1 := by
  have h := abs_le.mp (cosineSim_abs_le (colMean Pref) (colMean Ptest))
  rw [hotPpgSimilarity]
  exact ⟨by linarith [h.1], by linarith [h.2]⟩

/-- A constant-zero cost matrix accumulates to zero at the `(2, 2)` corner. -/
theorem accMat_zero_corner (c : ℕ → ℕ → ℝ) (hc : ∀ i j, i < 2 → j < 2 → c i j = 0) :
    accMat c 2 2 = ((0 : ℝ) : WithTop ℝ) := by
  have h11 : accMat c 1 1 = ((0 : ℝ) : WithTop ℝ) := by
    show accMat c (0 + 1) (0 + 1) = _
    rw [accMat, hc 0 0 (by omega) (by omega),
      show accMat c 0 (0 + 1) = ⊤ from accMat_row0 c 0,
      show accMat c (0 + 1) 0 = ⊤ from accMat_col0 c 0, accMat_zero]
    simp only [wt_zero, wt_min_top_left, wt_min_top_right, wt_coe_min, wt_coe_add]
    norm_num
  have h12 : accMat c 1 2 = ((0 : ℝ) : WithTop ℝ) := by
    show accMat c (0 + 1) (1 + 1) = _
    rw [accMat, hc 0 1 (by omega) (by omega),
      show accMat c 0 (1 + 1) = ⊤ from accMat_row0 c 1,
      show accMat c (0 + 1) 1 = ((0 : ℝ) : WithTop ℝ) from h11,
      show accMat c 0 1 = ⊤ from accMat_row0 c 0]
    simp only [wt_zero, wt_min_top_left, wt_min_top_right, wt_coe_min, wt_coe_add]
    norm_num
  have h21 : accMat c 2 1 = ((0 : ℝ) : WithTop ℝ) := by
    show accMat c (1 + 1) (0 + 1) = _
    rw [accMat, hc 1 0 (by omega) (by omega),
      show accMat c 1 (0 + 1) = ((0 : ℝ) : WithTop ℝ) from h11,
      show accMat c (1 + 1) 0 = ⊤ from accMat_col0 c 1,
      show accMat c 1 0 = ⊤ from accMat_col0 c 0]
    simp only [wt_zero, wt_min_top_left, wt_min_top_right, wt_coe_min, wt_coe_add]
    norm_num
  show accMat c (1 + 1) (1 + 1) = _
  rw [accMat, hc 1 1 (by omega) (by omega),
    show accMat c 1 (1 + 1) = ((0 : ℝ) : WithTop ℝ) from h12,
    show accMat c (1 + 1) 1 = ((0 : ℝ) : WithTop ℝ) from h21,
    show accMat c 1 1 = ((0 : ℝ) : WithTop ℝ) from h11]
  simp only [wt_zero, wt_min_top_left, wt_min_top_right, wt_coe_min, wt_coe_add]
  norm_num

/-- Concrete posteriorgram pair on which the hot-path cosine feature and the
standalone JSD+DTW metric disagree (the latter returns exactly 1 because
blank removal and renormalisation collapse both inputs to the same
distribution; the former sees the difference through the blank column). -/
theorem hotPpg_ne_jsd_instance :
    hotPpgSimilarity (List.replicate 6 [(1/2 : ℝ), 1/4, 1/4])
        (List.replicate 6 [(1/10 : ℝ), 9/20, 9/20]) ≠
      ppgJsdSimilarity (List.replicate 6 [(1/2 : ℝ), 1/4, 1/4])
        (List.replicate 6 [(1/10 : ℝ), 9/20, 9/20]) 0 none 3 := by
  have hrowa : removeBlankRenorm 0 [(1/2 : ℝ), 1/4, 1/4] = [1/2, 1/2] := by
    rw [removeBlankRenorm, removeBlank,
      show ([(1/2 : ℝ), 1/4, 1/4].eraseIdx 0) = [(1/4 : ℝ), 1/4] from rfl, renormRow]
    norm_num
  have hrowb : removeBlankRenorm 0 [(1/10 : ℝ), 9/20, 9/20] = [1/2, 1/2] := by
    rw [removeBlankRenorm, removeBlank,
      show ([(1/10 : ℝ), 9/20, 9/20].eraseIdx 0) = [(9/20 : ℝ), 9/20] from rfl, renormRow]
    norm_num
  have hdown : downsampleList 3 (List.replicate 6 [(1/2 : ℝ), 1/2]) =
      [[(1/2 : ℝ), 1/2], [(1/2 : ℝ), 1/2]] := by
    rw [downsampleList, if_pos (by norm_num)]
    rfl
  have hjsd0 : jsdDivergence [(1/2 : ℝ), 1/2] [(1/2 : ℝ), 1/2] = 0 := by
    simp only [jsdDivergence]
    norm_num
  have hD : ∀ i j, i < 2 → j < 2 →
      ppgD [[(1/2 : ℝ), 1/2], [(1/2 : ℝ), 1/2]] [[(1/2 : ℝ), 1/2], [(1/2 : ℝ), 1/2]]
        none i j = 0 := by
    intro i j hi hj
    interval_cases i <;> interval_cases j <;> exact hjsd0
  have hjsdval : ppgJsdSimilarity (List.replicate 6 [(1/2 : ℝ), 1/4, 1/4])
      (List.replicate 6 [(1/10 : ℝ), 9/20, 9/20]) 0 none 3 = 1 := by
    simp only [ppgJsdSimilarity]
    rw [List.map_replicate, List.map_replicate, hrowa, hrowb, hdown]
    rw [show ([[(1/2 : ℝ), 1/2], [(1/2 : ℝ), 1/2]] : List (List ℝ)).length = 2 from rfl,
      show autoBand 2 2 none = none from rfl]
    rw [accMat_zero_corner _ (fun i j hi hj => hD i j hi hj), withTopElim_coe]
    norm_num [Real.exp_zero]
  have hcs1 : colSum (List.replicate 6 [(1/2 : ℝ), 1/4, 1/4]) = [3, 3/2, 3/2] := by
    show colSum ([(1/2 : ℝ), 1/4, 1/4] :: [[(1/2 : ℝ), 1/4, 1/4], [(1/2 : ℝ), 1/4, 1/4],
      [(1/2 : ℝ), 1/4, 1/4], [(1/2 : ℝ), 1/4, 1/4], [(1/2 : ℝ), 1/4, 1/4]]) = _
    rw [colSum]
    norm_num [addRows]
  have hcs2 : colSum (List.replicate 6 [(1/10 : ℝ), 9/20, 9/20]) = [3/5, 27/10, 27/10] := by
    show colSum ([(1/10 : ℝ), 9/20, 9/20] :: [[(1/10 : ℝ), 9/20, 9/20],
      [(1/10 : ℝ), 9/20, 9/20], [(1/10 : ℝ), 9/20, 9/20], [(1/10 : ℝ), 9/20, 9/20],
      [(1/10 : ℝ), 9/20, 9/20]]) = _
    rw [colSum]
    norm_num [addRows]
  have hcm1 : colMean (List.replicate 6 [(1/2 : ℝ), 1/4, 1/4]) = [1/2, 1/4, 1/4] := by
    rw [colMean, hcs1, List.length_replicate]
    norm_num
  have hcm2 : colMean (List.replicate 6 [(1/10 : ℝ), 9/20, 9/20]) = [1/10, 9/20, 9/20] := by
    rw [colMean, hcs2, List.length_replicate]
    norm_num
  have hdot : dotList [(1/2 : ℝ), 1/4, 1/4] [(1/10 : ℝ), 9/20, 9/20] = 11/40 := by
    rw [dotList]
    norm_num
  have hsa : sqSum [(1/2 : ℝ), 1/4, 1/4] = 3/8 := by rw [sqSum]; norm_num
  have hsb : sqSum [(1/10 : ℝ), 9/20, 9/20] = 83/200 := by rw [sqSum]; norm_num
  have hprod : norm2 [(1/2 : ℝ), 1/4, 1/4] * norm2 [(1/10 : ℝ), 9/20, 9/20] =
      Real.sqrt (249/1600) := by
    rw [norm2, norm2, hsa, hsb, ← Real.sqrt_mul (by norm_num)]
    norm_num
  have hlow : (1/10 ^ 8 : ℝ) ≤ Real.sqrt (249/1600) := by
    rw [show (1/10 ^ 8 : ℝ) = Real.sqrt ((1/10 ^ 8) ^ 2) from
      (Real.sqrt_sq (by norm_num)).symm]
    exact Real.sqrt_le_sqrt (by norm_num)
  have hup : (11/40 : ℝ) < Real.sqrt (249/1600) := by
    rw [show (11/40 : ℝ) = Real.sqrt ((11/40) ^ 2) from (Real.sqrt_sq (by norm_num)).symm]
    exact Real.sqrt_lt_sqrt (by positivity) (by norm_num)
  have hcos : cosineSim [(1/2 : ℝ), 1/4, 1/4] [(1/10 : ℝ), 9/20, 9/20] < 1 := by
    rw [cosineSim, hdot, hprod, max_eq_left hlow,
      div_lt_one (lt_of_lt_of_le (by norm_num) hlow)]
    exact hup
  rw [hotPpgSimilarity, hcm1, hcm2, hjsdval]
  intro heq
  linarith

/-- C10: the Unified Scorer's hot-path PPG feature is `(1 + cosine)/2` of the
time-averaged posterior distributions with the blank column included, always
in `[0, 1]`; and it is not extensionally equal to the standalone JSD+DTW PPG
metric (blank removed and renormalised): a concrete posteriorgram pair
separates the two. -/
theorem claim_C10_hot_ppg_refinement :
    (∀ Pref Ptest : List (List ℝ),
      0 ≤ hotPpgSimilarity Pref Ptest ∧ hotPpgSimilarity Pref Ptest ≤ 1) ∧
    (∃ Pa Pb : List (List ℝ),
      hotPpgSimilarity Pa Pb ≠ ppgJsdSimilarity Pa Pb 0 none 3) :=
  ⟨hotPpgSimilarity_mem_unit, ⟨_, _, hotPpg_ne_jsd_instance⟩⟩
